import Mathlib

/-!
Verification of the DDoSGuard traffic-profiling → anomaly-scoring → mitigation
pipeline.  The Python source (`traffic_profiler.py`, `anomaly_detector.py`,
`mitigation.py`) is shallowly embedded: floats become `ℚ`, wall-clock reads
become explicit `now : ℚ` parameters, `random` draws become explicit oracle
parameters, and the blocked-IP database table becomes a list field of the
mitigation state.  The isolation-forest model of the anomaly detector is an
external library; its fit/score step is abstracted as an oracle function that
may fail (`Except`), exactly as the `try/except` in the source treats it.
-/

/-- Python's `str.startswith(prefix)`. -/
def pyStartsWith (s p : String) : Bool :=
  p.data.isPrefixOf s.data

/-- Python's `'.' in s` membership test on strings. -/
def pyContainsDot (s : String) : Bool :=
  s.data.contains '.'

/-- Association-list lookup, modelling Python `dict` access by key. -/
def alookup {β : Type} (l : List (String × β)) (k : String) : Option β :=
  (l.find? (fun e => e.1 == k)).map (·.2)

/-- Association-list lookup with a default, modelling `dict.get(k, d)` /
`defaultdict` reads. -/
def alookupD {β : Type} (l : List (String × β)) (k : String) (d : β) : β :=
  (alookup l k).getD d

/-- Association-list update, modelling Python `dict` assignment `d[k] = v`
(insertion order preserved for an existing key, appended otherwise). -/
def aupdate {β : Type} (l : List (String × β)) (k : String) (v : β) :
    List (String × β) :=
  if l.any (fun e => e.1 == k) then
    l.map (fun e => if e.1 == k then (k, v) else e)
  else
    l ++ [(k, v)]

theorem alookup_nil {β : Type} (k : String) : alookup ([] : List (String × β)) k = none := rfl

theorem alookup_cons_self {β : Type} (e : String × β) (t : List (String × β))
    (k : String) (h : e.1 = k) : alookup (e :: t) k = some e.2 := by
  unfold alookup
  rw [List.find?_cons_of_pos _ (by simp [h])]
  rfl

theorem alookup_cons_ne {β : Type} (e : String × β) (t : List (String × β))
    (k : String) (h : ¬ e.1 = k) : alookup (e :: t) k = alookup t k := by
  unfold alookup
  rw [List.find?_cons_of_neg _ (by simp [h])]

theorem alookup_map_overwrite {β : Type} (k k' : String) (v : β) (hne : k' ≠ k) :
    ∀ l : List (String × β),
      alookup (l.map (fun e => if e.1 == k then (k, v) else e)) k' = alookup l k'
  | [] => rfl
  | e :: t => by
    by_cases h : e.1 = k
    · have h1 : (if (e.1 == k) then (k, v) else e) = (k, v) := by simp [h]
      have h2 : ¬ e.1 = k' := by rw [h]; exact Ne.symm hne
      rw [List.map_cons, h1, alookup_cons_ne _ _ _ (Ne.symm hne),
        alookup_cons_ne _ _ _ h2]
      exact alookup_map_overwrite k k' v hne t
    · have h1 : (if (e.1 == k) then (k, v) else e) = e := by simp [h]
      rw [List.map_cons, h1]
      by_cases h2 : e.1 = k'
      · rw [alookup_cons_self _ _ _ h2, alookup_cons_self _ _ _ h2]
      · rw [alookup_cons_ne _ _ _ h2, alookup_cons_ne _ _ _ h2]
        exact alookup_map_overwrite k k' v hne t

theorem alookup_append_single_ne {β : Type} (k k' : String) (v : β) (hne : k' ≠ k) :
    ∀ l : List (String × β), alookup (l ++ [(k, v)]) k' = alookup l k'
  | [] => by
    rw [List.nil_append, alookup_cons_ne _ _ _ (Ne.symm hne)]
  | e :: t => by
    by_cases h2 : e.1 = k'
    · rw [List.cons_append, alookup_cons_self _ _ _ h2, alookup_cons_self _ _ _ h2]
    · rw [List.cons_append, alookup_cons_ne _ _ _ h2, alookup_cons_ne _ _ _ h2]
      exact alookup_append_single_ne k k' v hne t

theorem alookup_aupdate_self {β : Type} (l : List (String × β)) (k : String) (v : β) :
    alookup (aupdate l k v) k = some v := by
  unfold aupdate
  split
  · rename_i h
    induction l with
    | nil => simp at h
    | cons e t ih =>
      by_cases hk : e.1 = k
      · have h1 : (if (e.1 == k) then (k, v) else e) = (k, v) := by simp [hk]
        rw [List.map_cons, h1, alookup_cons_self _ _ _ rfl]
      · have h1 : (if (e.1 == k) then (k, v) else e) = e := by simp [hk]
        have h2 : t.any (fun e => e.1 == k) := by
          simp only [List.any_cons, Bool.or_eq_true, beq_iff_eq] at h
          rcases h with h | h
          · exact absurd h hk
          · exact h
        rw [List.map_cons, h1, alookup_cons_ne _ _ _ hk]
        exact ih h2
  · induction l with
    | nil =>
      rw [List.nil_append, alookup_cons_self _ _ _ rfl]
    | cons e t ih =>
      rename_i h
      have hk : ¬ e.1 = k := by
        intro hc
        exact absurd (by simp [hc] : ((e :: t).any (fun e => e.1 == k)) = true) h
      have h2 : ¬ (t.any (fun e => e.1 == k)) = true := by
        intro hc
        exact absurd (by simp [hc] : ((e :: t).any (fun e => e.1 == k)) = true) h
      rw [List.cons_append, alookup_cons_ne _ _ _ hk]
      exact ih h2

theorem alookup_aupdate_ne {β : Type} (l : List (String × β)) (k k' : String)
    (v : β) (hne : k' ≠ k) : alookup (aupdate l k v) k' = alookup l k' := by
  unfold aupdate
  split
  · exact alookup_map_overwrite k k' v hne l
  · exact alookup_append_single_ne k k' v hne l

/-! ## LRUCache (mitigation.py, lines 34–65)

`OrderedDict` is modelled as an association list whose *front* is the least
recently used entry and whose *back* is the most recently used one. -/

structure LRUCache (β : Type) where
  capacity : Nat
  cache : List (String × β)
deriving Repr, DecidableEq

namespace LRUCache

variable {β : Type}

/-- `get`: return `None` for a missing key; otherwise move the entry to the
most-recently-used end and return its value. -/
def get (c : LRUCache β) (k : String) : Option β × LRUCache β :=
  match alookup c.cache k with
  | none => (none, c)
  | some v => (some v, { c with cache := c.cache.eraseP (fun e => e.1 == k) ++ [(k, v)] })

/-- `put`: write the value, move the entry to the most-recently-used end, and
evict the least-recently-used entry if the capacity is exceeded. -/
def put (c : LRUCache β) (k : String) (v : β) : LRUCache β :=
  if c.capacity < (c.cache.eraseP (fun e => e.1 == k) ++ [(k, v)]).length then
    { c with cache := (c.cache.eraseP (fun e => e.1 == k) ++ [(k, v)]).tail }
  else
    { c with cache := c.cache.eraseP (fun e => e.1 == k) ++ [(k, v)] }

/-- Fold a list of key/value pairs through `put`. -/
def putAll (c : LRUCache β) (kvs : List (String × β)) : LRUCache β :=
  kvs.foldl (fun c kv => put c kv.1 kv.2) c

theorem put_capacity (c : LRUCache β) (k : String) (v : β) :
    (put c k v).capacity = c.capacity := by
  unfold put
  split <;> rfl

theorem length_le_length_eraseP_add_one {α : Type} (p : α → Bool) (l : List α) :
    l.length ≤ (l.eraseP p).length + 1 := by
  induction l with
  | nil => simp
  | cons a t ih =>
    by_cases h : p a
    · simp [List.eraseP_cons, h]
    · simp only [List.eraseP_cons, h]
      simpa using ih

theorem put_length_le (c : LRUCache β) (k : String) (v : β)
    (h : c.cache.length ≤ c.capacity) :
    (put c k v).cache.length ≤ c.capacity := by
  unfold put
  have h1 : (c.cache.eraseP (fun e => e.1 == k)).length ≤ c.cache.length :=
    List.length_eraseP_le c.cache
  split
  · rename_i hlt
    simp only [List.length_tail, List.length_append, List.length_cons,
      List.length_nil] at *
    omega
  · rename_i hle
    simp only [List.length_append, List.length_cons, List.length_nil] at *
    omega

theorem put_length_mono (c : LRUCache β) (k : String) (v : β)
    (h : c.cache.length ≤ c.capacity) :
    c.cache.length ≤ (put c k v).cache.length := by
  unfold put
  have h1 : (c.cache.eraseP (fun e => e.1 == k)).length ≤ c.cache.length :=
    List.length_eraseP_le c.cache
  have h2 : c.cache.length ≤ (c.cache.eraseP (fun e => e.1 == k)).length + 1 :=
    length_le_length_eraseP_add_one _ _
  split
  · rename_i hlt
    simp only [List.length_tail, List.length_append, List.length_cons,
      List.length_nil] at *
    omega
  · rename_i hle
    simp only [List.length_append, List.length_cons, List.length_nil] at *
    omega

theorem putAll_cons (c : LRUCache β) (kv : String × β) (t : List (String × β)) :
    putAll c (kv :: t) = putAll (put c kv.1 kv.2) t := rfl

theorem putAll_length_le (c : LRUCache β) (kvs : List (String × β))
    (h : c.cache.length ≤ c.capacity) :
    (putAll c kvs).cache.length ≤ c.capacity := by
  induction kvs generalizing c with
  | nil => simpa [putAll]
  | cons kv t ih =>
    rw [putAll_cons]
    have hput := put_length_le c kv.1 kv.2 h
    have := ih (put c kv.1 kv.2) (by rw [put_capacity]; exact hput)
    rwa [put_capacity] at this

theorem putAll_length_mono (c : LRUCache β) (kvs : List (String × β))
    (h : c.cache.length ≤ c.capacity) :
    c.cache.length ≤ (putAll c kvs).cache.length := by
  induction kvs generalizing c with
  | nil => simp [putAll]
  | cons kv t ih =>
    rw [putAll_cons]
    have h1 := put_length_mono c kv.1 kv.2 h
    have h2 := ih (put c kv.1 kv.2)
      (by rw [put_capacity]; exact put_length_le c kv.1 kv.2 h)
    exact le_trans h1 h2

theorem mem_keys_put_self (c : LRUCache β) (k : String) (v : β)
    (hnotrim : ¬ c.capacity < (c.cache.eraseP (fun e => e.1 == k) ++ [(k, v)]).length) :
    k ∈ (put c k v).cache.map Prod.fst := by
  unfold put
  rw [if_neg hnotrim]
  simp

theorem keys_subset_put (c : LRUCache β) (k : String) (v : β) (k' : String)
    (hnotrim : ¬ c.capacity < (c.cache.eraseP (fun e => e.1 == k) ++ [(k, v)]).length)
    (hk' : k' ∈ c.cache.map Prod.fst) :
    k' ∈ (put c k v).cache.map Prod.fst := by
  unfold put
  rw [if_neg hnotrim]
  by_cases he : k' = k
  · simp [he]
  · simp only [List.map_append, List.mem_append]
    left
    simp only [List.mem_map] at hk' ⊢
    obtain ⟨e, hmem, hfst⟩ := hk'
    refine ⟨e, ?_, hfst⟩
    refine (List.mem_eraseP_of_neg ?_).2 hmem
    simp [hfst, he]

/-- Core dichotomy: after a sequence of puts, either the cache reached its
capacity at some point (and then stays full), or every key put — and every
original key — is still present. -/
theorem putAll_dichotomy (kvs : List (String × β)) (c : LRUCache β)
    (h : c.cache.length ≤ c.capacity) :
    c.capacity ≤ (putAll c kvs).cache.length ∨
      ((∀ k' ∈ c.cache.map Prod.fst, k' ∈ (putAll c kvs).cache.map Prod.fst) ∧
        ∀ kv ∈ kvs, kv.1 ∈ (putAll c kvs).cache.map Prod.fst) := by
  induction kvs generalizing c with
  | nil => exact Or.inr ⟨fun k' hk' => hk', by simp⟩
  | cons kv t ih =>
    have hput : (put c kv.1 kv.2).cache.length ≤ (put c kv.1 kv.2).capacity := by
      rw [put_capacity]
      exact put_length_le c kv.1 kv.2 h
    by_cases htrim : c.capacity < (c.cache.eraseP (fun e => e.1 == kv.1) ++ [(kv.1, kv.2)]).length
    · left
      have hlen : c.capacity ≤ (put c kv.1 kv.2).cache.length := by
        unfold put
        rw [if_pos htrim]
        have h1 := List.length_eraseP_le (p := fun e => e.1 == kv.1) c.cache
        simp only [List.length_tail, List.length_append, List.length_cons,
          List.length_nil] at *
        omega
      have hmono := putAll_length_mono (put c kv.1 kv.2) t hput
      rw [putAll_cons]
      exact le_trans hlen hmono
    · rcases ih (put c kv.1 kv.2) hput with hl | ⟨hsub, hall⟩
      · left
        rw [putAll_cons]
        rw [put_capacity] at hl
        exact hl
      · right
        rw [putAll_cons]
        constructor
        · intro k' hk'
          exact hsub k' (keys_subset_put c kv.1 kv.2 k' htrim hk')
        · intro kv' hkv'
          rcases List.mem_cons.1 hkv' with rfl | hkv'
          · exact hsub kv'.1 (mem_keys_put_self c kv'.1 kv'.2 htrim)
          · exact hall kv' hkv'

theorem putAll_fills (c : LRUCache β) (kvs : List (String × β))
    (h : c.cache.length ≤ c.capacity) (hnd : (kvs.map Prod.fst).Nodup)
    (hlen : kvs.length = c.capacity + 1) :
    (putAll c kvs).cache.length = c.capacity := by
  have hub := putAll_length_le c kvs h
  rcases putAll_dichotomy kvs c h with hlb | ⟨_, hall⟩
  · omega
  · exfalso
    have hsub : kvs.map Prod.fst ⊆ (putAll c kvs).cache.map Prod.fst := by
      intro k hk
      simp only [List.mem_map] at hk
      obtain ⟨kv, hkv, rfl⟩ := hk
      exact hall kv hkv
    have := (hnd.subperm hsub).length_le
    simp only [List.length_map] at this
    omega

theorem eraseP_of_alookup_none (c : List (String × β)) (k : String)
    (h : alookup c k = none) : c.eraseP (fun e => e.1 == k) = c := by
  refine List.eraseP_of_forall_not ?_
  have hf : c.find? (fun e => e.1 == k) = none := by
    cases hc : c.find? (fun e => e.1 == k) with
    | none => rfl
    | some e =>
      rw [alookup, hc] at h
      simp at h
  exact List.find?_eq_none.1 hf

theorem put_evicts_lru (c : LRUCache β) (k : String) (v : β)
    (habs : alookup c.cache k = none) (hfull : c.cache.length = c.capacity)
    (hpos : 0 < c.capacity) :
    (put c k v).cache = c.cache.tail ++ [(k, v)] := by
  unfold put
  rw [eraseP_of_alookup_none c.cache k habs]
  rw [if_pos (by simp [hfull])]
  match c, hfull, hpos with
  | ⟨cap, e :: t⟩, _, _ => simp

theorem get_present (c : LRUCache β) (k : String) (v : β)
    (h : alookup c.cache k = some v) :
    get c k = (some v, { c with cache := c.cache.eraseP (fun e => e.1 == k) ++ [(k, v)] }) := by
  unfold get
  rw [h]

theorem get_absent (c : LRUCache β) (k : String)
    (h : alookup c.cache k = none) : get c k = (none, c) := by
  unfold get
  rw [h]

end LRUCache

/-- C7: For the LRU cache of capacity C: from any state within capacity,
inserting C+1 distinct keys leaves exactly C entries; when a put on a full
cache inserts a fresh key, the evicted entry is the least-recently-touched
(front) one; `get` on a present key returns its value and moves the entry to
the most-recently-used end; `get` on an absent key returns `none` and leaves
the cache unchanged; after every put the size is at most C. -/
theorem claim_C7_lru_cache :
    (∀ (β : Type) (c : LRUCache β) (kvs : List (String × β)),
        c.cache.length ≤ c.capacity → (kvs.map Prod.fst).Nodup →
        kvs.length = c.capacity + 1 →
        (LRUCache.putAll c kvs).cache.length = c.capacity) ∧
    (∀ (β : Type) (c : LRUCache β) (k : String) (v : β),
        alookup c.cache k = none → c.cache.length = c.capacity → 0 < c.capacity →
        (LRUCache.put c k v).cache = c.cache.tail ++ [(k, v)]) ∧
    (∀ (β : Type) (c : LRUCache β) (k : String) (v : β),
        alookup c.cache k = some v →
        LRUCache.get c k =
          (some v, { c with cache := c.cache.eraseP (fun e => e.1 == k) ++ [(k, v)] })) ∧
    (∀ (β : Type) (c : LRUCache β) (k : String),
        alookup c.cache k = none → LRUCache.get c k = (none, c)) ∧
    (∀ (β : Type) (c : LRUCache β) (k : String) (v : β),
        c.cache.length ≤ c.capacity →
        (LRUCache.put c k v).cache.length ≤ c.capacity) :=
  ⟨fun _ c kvs h hnd hlen => LRUCache.putAll_fills c kvs h hnd hlen,
   fun _ c k v habs hfull hpos => LRUCache.put_evicts_lru c k v habs hfull hpos,
   fun _ c k v h => LRUCache.get_present c k v h,
   fun _ c k h => LRUCache.get_absent c k h,
   fun _ c k v h => LRUCache.put_length_le c k v h⟩

theorem claim_C7_lru_cache_witness :
    (LRUCache.putAll (⟨2, []⟩ : LRUCache Nat)
        [("k1", 1), ("k2", 2), ("k3", 3)]).cache.length = 2 ∧
    (LRUCache.put (⟨2, [("k1", 1), ("k2", 2)]⟩ : LRUCache Nat) "k3" 3).cache =
      [("k1", 1), ("k2", 2)].tail ++ [("k3", 3)] ∧
    LRUCache.get (⟨2, [("k1", 1), ("k2", 2)]⟩ : LRUCache Nat) "k1" =
      (some 1, ⟨2, [("k2", 2), ("k1", 1)]⟩) ∧
    LRUCache.get (⟨2, [("k1", 1), ("k2", 2)]⟩ : LRUCache Nat) "k9" =
      (none, ⟨2, [("k1", 1), ("k2", 2)]⟩) ∧
    (LRUCache.put (⟨2, [("k1", 1), ("k2", 2)]⟩ : LRUCache Nat) "k3" 3).cache.length ≤ 2 :=
  ⟨claim_C7_lru_cache.1 Nat ⟨2, []⟩ [("k1", 1), ("k2", 2), ("k3", 3)]
      (by decide) (by decide) (by decide),
   claim_C7_lru_cache.2.1 Nat ⟨2, [("k1", 1), ("k2", 2)]⟩ "k3" 3
      (by decide) (by decide) (by decide),
   by
    have h := claim_C7_lru_cache.2.2.1 Nat ⟨2, [("k1", 1), ("k2", 2)]⟩ "k1" 1 (by decide)
    rw [h]
    decide,
   claim_C7_lru_cache.2.2.2.1 Nat ⟨2, [("k1", 1), ("k2", 2)]⟩ "k9" (by decide),
   claim_C7_lru_cache.2.2.2.2 Nat ⟨2, [("k1", 1), ("k2", 2)]⟩ "k3" 3 (by decide)⟩

/-! ## Association-list counter toolkit (for `collections.Counter` /
`defaultdict(int)`) -/

theorem alookup_eq_none_of_not_mem_keys {β : Type} (l : List (String × β)) (k : String)
    (h : k ∉ l.map Prod.fst) : alookup l k = none := by
  induction l with
  | nil => rfl
  | cons e t ih =>
    simp only [List.map_cons, List.mem_cons] at h
    push_neg at h
    rw [alookup_cons_ne _ _ _ (fun hc => h.1 hc.symm)]
    exact ih h.2

theorem mem_keys_of_alookup_eq_some {β : Type} (l : List (String × β)) (k : String)
    (v : β) (h : alookup l k = some v) : k ∈ l.map Prod.fst := by
  unfold alookup at h
  cases hf : l.find? (fun e => e.1 == k) with
  | none => rw [hf] at h; simp at h
  | some e =>
    have he : e ∈ l := List.mem_of_find?_eq_some hf
    have hk : e.1 = k := by simpa using List.find?_some hf
    exact hk ▸ List.mem_map_of_mem Prod.fst he

theorem keys_aupdate_of_any {β : Type} (l : List (String × β)) (k : String) (v : β)
    (h : l.any (fun e => e.1 == k)) :
    (aupdate l k v).map Prod.fst = l.map Prod.fst := by
  unfold aupdate
  rw [if_pos h, List.map_map]
  refine List.map_congr_left ?_
  intro e _
  by_cases hk : e.1 = k
  · simp [hk]
  · simp [hk]

theorem keys_aupdate_of_not_any {β : Type} (l : List (String × β)) (k : String) (v : β)
    (h : ¬ (l.any (fun e => e.1 == k)) = true) :
    (aupdate l k v).map Prod.fst = l.map Prod.fst ++ [k] := by
  unfold aupdate
  rw [if_neg h, List.map_append]
  rfl

theorem nodup_keys_aupdate {β : Type} (l : List (String × β)) (k : String) (v : β)
    (h : (l.map Prod.fst).Nodup) : ((aupdate l k v).map Prod.fst).Nodup := by
  by_cases ha : (l.any (fun e => e.1 == k)) = true
  · rw [keys_aupdate_of_any l k v ha]
    exact h
  · rw [keys_aupdate_of_not_any l k v ha]
    have hk : k ∉ l.map Prod.fst := by
      intro hc
      simp only [List.mem_map] at hc
      obtain ⟨e, he, hfst⟩ := hc
      exact ha (List.any_eq_true.2 ⟨e, he, by simp [hfst]⟩)
    simp [List.nodup_append, h, hk]

theorem values_aupdate_subset {β : Type} (l : List (String × β)) (k : String) (v v' : β)
    (h : v' ∈ (aupdate l k v).map Prod.snd) : v' ∈ l.map Prod.snd ∨ v' = v := by
  unfold aupdate at h
  split at h
  · rw [List.map_map] at h
    simp only [List.mem_map, Function.comp] at h
    obtain ⟨e, he, hv⟩ := h
    by_cases hk : e.1 = k
    · simp [hk] at hv
      exact Or.inr hv.symm
    · simp [hk] at hv
      exact Or.inl (hv ▸ List.mem_map_of_mem Prod.snd he)
  · rw [List.map_append] at h
    rcases List.mem_append.1 h with h | h
    · exact Or.inl h
    · simp at h
      exact Or.inr h

theorem eraseP_keyed_cons_pos {β : Type} (e : String × β) (t : List (String × β))
    (k : String) (h : e.1 = k) :
    (e :: t).eraseP (fun x => x.1 == k) = t := by
  simp [List.eraseP_cons, h]

theorem eraseP_keyed_cons_neg {β : Type} (e : String × β) (t : List (String × β))
    (k : String) (h : ¬ e.1 = k) :
    (e :: t).eraseP (fun x => x.1 == k) = e :: t.eraseP (fun x => x.1 == k) := by
  simp [List.eraseP_cons, h]

theorem alookup_eraseP_ne {β : Type} (k k' : String) (hne : k' ≠ k) :
    ∀ l : List (String × β), alookup (l.eraseP (fun e => e.1 == k)) k' = alookup l k'
  | [] => rfl
  | e :: t => by
    by_cases hk : e.1 = k
    · have h2 : ¬ e.1 = k' := fun hc => hne (hc ▸ hk)
      rw [eraseP_keyed_cons_pos _ _ _ hk, alookup_cons_ne _ _ _ h2]
    · rw [eraseP_keyed_cons_neg _ _ _ hk]
      by_cases hk' : e.1 = k'
      · rw [alookup_cons_self _ _ _ hk', alookup_cons_self _ _ _ hk']
      · rw [alookup_cons_ne _ _ _ hk', alookup_cons_ne _ _ _ hk']
        exact alookup_eraseP_ne k k' hne t

theorem alookup_eraseP_self {β : Type} (k : String) :
    ∀ l : List (String × β), (l.map Prod.fst).Nodup →
      alookup (l.eraseP (fun e => e.1 == k)) k = none
  | [], _ => rfl
  | e :: t, hnd => by
    simp only [List.map_cons, List.nodup_cons] at hnd
    by_cases hk : e.1 = k
    · rw [eraseP_keyed_cons_pos _ _ _ hk]
      exact alookup_eq_none_of_not_mem_keys t k (hk ▸ hnd.1)
    · rw [eraseP_keyed_cons_neg _ _ _ hk, alookup_cons_ne _ _ _ hk]
      exact alookup_eraseP_self k t hnd.2

theorem nodup_keys_eraseP {β : Type} (l : List (String × β)) (p : String × β → Bool)
    (h : (l.map Prod.fst).Nodup) : ((l.eraseP p).map Prod.fst).Nodup :=
  h.sublist ((List.eraseP_sublist l).map Prod.fst)

theorem values_eraseP_subset {β : Type} (l : List (String × β)) (p : String × β → Bool)
    (v : β) (h : v ∈ (l.eraseP p).map Prod.snd) : v ∈ l.map Prod.snd := by
  exact ((List.eraseP_sublist l).map Prod.snd).mem h

/-! ## TrafficProfiler (traffic_profiler.py, lines 45–95)

`process_request` appends the event to the sliding window, bumps the
per-source `Counter`, and `_clean_window` pops every event older than
`window_size`, decrementing the counter and deleting zero-count sources.
`_update_metrics` (and the throttled DB logging) read but never modify the
window or the counter, so they are outside this state model. -/

structure PEvent where
  ip_address : String
  timestamp : ℚ
  path : String
  method : String
deriving Repr, DecidableEq

structure ProfilerState where
  window_size : ℚ
  request_window : List PEvent
  ip_counter : List (String × Nat)
  request_count : Nat
  last_update_time : ℚ
deriving Repr, DecidableEq

/-- Number of window events from a given source. -/
def windowCount : List PEvent → String → Nat
  | [], _ => 0
  | e :: w, ip => (if e.ip_address = ip then 1 else 0) + windowCount w ip

/-- `Counter[k] += 1`. -/
def counterInc (c : List (String × Nat)) (k : String) : List (String × Nat) :=
  aupdate c k (alookupD c k 0 + 1)

/-- `Counter[k] -= 1; if Counter[k] <= 0: del Counter[k]`.  A decrement of a
missing key would create it with value `-1` and immediately delete it, which
is a no-op on the stored entries. -/
def counterDec (c : List (String × Nat)) (k : String) : List (String × Nat) :=
  match alookup c k with
  | some v => if v ≤ 1 then c.eraseP (fun e => e.1 == k) else aupdate c k (v - 1)
  | none => c

/-- The `while` loop of `_clean_window`: pop window entries older than the
cutoff, decrementing the per-source counter as we go. -/
def cleanLoop (wsize now : ℚ) :
    List PEvent → List (String × Nat) → List PEvent × List (String × Nat)
  | [], c => ([], c)
  | e :: rest, c =>
    if e.timestamp < now - wsize then cleanLoop wsize now rest (counterDec c e.ip_address)
    else (e :: rest, c)

namespace TrafficProfiler

/-- `process_request(ip, path, method)` at wall-clock time `now`. -/
def processRequest (s : ProfilerState) (ip path method : String) (now : ℚ) :
    ProfilerState :=
  let w := s.request_window ++ [(⟨ip, now, path, method⟩ : PEvent)]
  let c := counterInc s.ip_counter ip
  let r := cleanLoop s.window_size now w c
  { s with
    request_window := r.1
    ip_counter := r.2
    request_count := s.request_count + 1
    last_update_time :=
      if 1 ≤ now - s.last_update_time then now else s.last_update_time }

end TrafficProfiler

/-- The profiler's window/counter consistency invariant: the window is ordered
by timestamp, the counter stores exactly the per-source window multiplicities,
every stored count is nonzero, and keys are unique. -/
def ProfilerInv (s : ProfilerState) : Prop :=
  s.request_window.Pairwise (fun a b => a.timestamp ≤ b.timestamp) ∧
  (∀ ip, alookupD s.ip_counter ip 0 = windowCount s.request_window ip) ∧
  (∀ kv ∈ s.ip_counter, kv.2 ≠ 0) ∧
  (s.ip_counter.map Prod.fst).Nodup

theorem windowCount_nil (ip : String) : windowCount [] ip = 0 := rfl

theorem windowCount_cons (e : PEvent) (w : List PEvent) (ip : String) :
    windowCount (e :: w) ip = (if e.ip_address = ip then 1 else 0) + windowCount w ip := rfl

theorem windowCount_append (w w' : List PEvent) (ip : String) :
    windowCount (w ++ w') ip = windowCount w ip + windowCount w' ip := by
  induction w with
  | nil => simp [windowCount]
  | cons e t ih => simp [windowCount, ih]; omega

theorem counterInc_lookup_self (c : List (String × Nat)) (k : String) :
    alookupD (counterInc c k) k 0 = alookupD c k 0 + 1 := by
  unfold counterInc alookupD
  rw [alookup_aupdate_self]
  rfl

theorem counterInc_lookup_ne (c : List (String × Nat)) (k k' : String) (hne : k' ≠ k) :
    alookupD (counterInc c k) k' 0 = alookupD c k' 0 := by
  unfold counterInc alookupD
  rw [alookup_aupdate_ne _ _ _ _ hne]

theorem counterDec_lookup_self (c : List (String × Nat)) (k : String) (v : Nat)
    (hv : alookup c k = some v) (hnd : (c.map Prod.fst).Nodup) :
    alookupD (counterDec c k) k 0 = v - 1 := by
  unfold counterDec
  rw [hv]
  dsimp only
  by_cases h1 : v ≤ 1
  · rw [if_pos h1]
    unfold alookupD
    rw [alookup_eraseP_self k c hnd]
    simp only [Option.getD_none]
    omega
  · rw [if_neg h1]
    unfold alookupD
    rw [alookup_aupdate_self]
    rfl

theorem counterDec_lookup_ne (c : List (String × Nat)) (k k' : String) (hne : k' ≠ k) :
    alookupD (counterDec c k) k' 0 = alookupD c k' 0 := by
  unfold counterDec
  cases hv : alookup c k with
  | none => rfl
  | some v =>
    dsimp only
    by_cases h1 : v ≤ 1
    · rw [if_pos h1]
      unfold alookupD
      rw [alookup_eraseP_ne k k' hne c]
    · rw [if_neg h1]
      unfold alookupD
      rw [alookup_aupdate_ne _ _ _ _ hne]

theorem counterDec_nodup (c : List (String × Nat)) (k : String)
    (hnd : (c.map Prod.fst).Nodup) : ((counterDec c k).map Prod.fst).Nodup := by
  unfold counterDec
  cases alookup c k with
  | none => exact hnd
  | some v =>
    dsimp only
    by_cases h1 : v ≤ 1
    · rw [if_pos h1]
      exact nodup_keys_eraseP c _ hnd
    · rw [if_neg h1]
      exact nodup_keys_aupdate c k _ hnd

theorem counterDec_values (c : List (String × Nat)) (k : String) (v : Nat)
    (hv : alookup c k = some v) (hval : ∀ kv ∈ c, kv.2 ≠ 0) (_hvpos : 1 ≤ v) :
    ∀ kv ∈ counterDec c k, kv.2 ≠ 0 := by
  unfold counterDec
  rw [hv]
  dsimp only
  by_cases h1 : v ≤ 1
  · rw [if_pos h1]
    intro kv hkv
    exact hval kv ((List.eraseP_sublist c).mem hkv)
  · rw [if_neg h1]
    intro kv hkv
    have := values_aupdate_subset c k (v - 1) kv.2 (List.mem_map_of_mem Prod.snd hkv)
    rcases this with h | h
    · simp only [List.mem_map] at h
      obtain ⟨kv', hkv', hsnd⟩ := h
      exact hsnd ▸ hval kv' hkv'
    · omega

theorem counterInc_nodup (c : List (String × Nat)) (k : String)
    (hnd : (c.map Prod.fst).Nodup) : ((counterInc c k).map Prod.fst).Nodup :=
  nodup_keys_aupdate c k _ hnd

theorem counterInc_values (c : List (String × Nat)) (k : String)
    (hval : ∀ kv ∈ c, kv.2 ≠ 0) : ∀ kv ∈ counterInc c k, kv.2 ≠ 0 := by
  intro kv hkv
  have := values_aupdate_subset c k (alookupD c k 0 + 1) kv.2
    (List.mem_map_of_mem Prod.snd hkv)
  rcases this with h | h
  · simp only [List.mem_map] at h
    obtain ⟨kv', hkv', hsnd⟩ := h
    exact hsnd ▸ hval kv' hkv'
  · omega

theorem cleanLoop_spec (wsize now : ℚ) :
    ∀ (w : List PEvent) (c : List (String × Nat)),
      w.Pairwise (fun a b => a.timestamp ≤ b.timestamp) →
      (∀ ip, alookupD c ip 0 = windowCount w ip) →
      (∀ kv ∈ c, kv.2 ≠ 0) →
      (c.map Prod.fst).Nodup →
      (cleanLoop wsize now w c).1.Pairwise (fun a b => a.timestamp ≤ b.timestamp) ∧
      (∀ ip, alookupD (cleanLoop wsize now w c).2 ip 0 =
        windowCount (cleanLoop wsize now w c).1 ip) ∧
      (∀ kv ∈ (cleanLoop wsize now w c).2, kv.2 ≠ 0) ∧
      ((cleanLoop wsize now w c).2.map Prod.fst).Nodup ∧
      (∀ e ∈ (cleanLoop wsize now w c).1, e ∈ w) ∧
      (∀ e ∈ (cleanLoop wsize now w c).1, ¬ e.timestamp < now - wsize)
  | [], c => by
    intro _ hmatch hval hnd
    exact ⟨List.Pairwise.nil, hmatch, hval, hnd, by simp [cleanLoop], by simp [cleanLoop]⟩
  | e :: rest, c => by
    intro hsort hmatch hval hnd
    rw [cleanLoop]
    by_cases hold : e.timestamp < now - wsize
    · rw [if_pos hold]
      have hv : alookup c e.ip_address = some (windowCount (e :: rest) e.ip_address) := by
        have h0 := hmatch e.ip_address
        have hpos : 0 < windowCount (e :: rest) e.ip_address := by
          rw [windowCount_cons, if_pos rfl]
          omega
        unfold alookupD at h0
        cases hc : alookup c e.ip_address with
        | none => rw [hc] at h0; simp at h0; omega
        | some v => rw [hc] at h0; simp at h0; rw [h0]
      have hwc : windowCount (e :: rest) e.ip_address =
          windowCount rest e.ip_address + 1 := by
        rw [windowCount_cons, if_pos rfl]
        omega
      have hmatch' : ∀ ip, alookupD (counterDec c e.ip_address) ip 0 =
          windowCount rest ip := by
        intro ip
        by_cases hip : ip = e.ip_address
        · subst hip
          rw [counterDec_lookup_self c e.ip_address _ hv hnd, hwc]
          omega
        · rw [counterDec_lookup_ne c _ _ hip]
          have hm := hmatch ip
          rw [windowCount_cons, if_neg (fun hc => hip hc.symm), Nat.zero_add] at hm
          exact hm
      have hval' := counterDec_values c e.ip_address _ hv hval (by omega)
      have hnd' := counterDec_nodup c e.ip_address hnd
      have ih := cleanLoop_spec wsize now rest (counterDec c e.ip_address)
        (List.Pairwise.of_cons hsort) hmatch' hval' hnd'
      exact ⟨ih.1, ih.2.1, ih.2.2.1, ih.2.2.2.1,
        fun e' he' => List.mem_cons_of_mem e (ih.2.2.2.2.1 e' he'),
        ih.2.2.2.2.2⟩
    · rw [if_neg hold]
      refine ⟨hsort, hmatch, hval, hnd, fun e' he' => he', ?_⟩
      intro e' he'
      rcases List.mem_cons.1 he' with rfl | he'
      · exact hold
      · have hle : e.timestamp ≤ e'.timestamp :=
          (List.pairwise_cons.1 hsort).1 e' he'
        intro hc
        exact hold (lt_of_le_of_lt hle hc)

theorem windowCount_eq_count (w : List PEvent) (ip : String) :
    windowCount w ip = (w.map (fun e => e.ip_address)).count ip := by
  induction w with
  | nil => simp [windowCount_nil]
  | cons e t ih =>
    rw [windowCount_cons, ih, List.map_cons, List.count_cons]
    by_cases h : e.ip_address = ip
    · simp [h, Nat.add_comm]
    · simp [h]

theorem sum_values_eq_sum_keys (c : List (String × Nat))
    (hnd : (c.map Prod.fst).Nodup) :
    ∑ a ∈ (c.map Prod.fst).toFinset, alookupD c a 0 = (c.map Prod.snd).sum := by
  induction c with
  | nil => simp
  | cons e t ih =>
    simp only [List.map_cons, List.nodup_cons] at hnd
    have hnotin : e.1 ∉ (t.map Prod.fst).toFinset := by simpa using hnd.1
    rw [List.map_cons, List.toFinset_cons, Finset.sum_insert hnotin]
    have h1 : alookupD (e :: t) e.1 0 = e.2 := by
      unfold alookupD
      rw [alookup_cons_self _ _ _ rfl]
      rfl
    have h2 : ∀ a ∈ (t.map Prod.fst).toFinset, alookupD (e :: t) a 0 = alookupD t a 0 := by
      intro a ha
      have hne : ¬ e.1 = a := by
        intro hc
        have hmem : a ∈ t.map Prod.fst := List.mem_toFinset.1 ha
        exact hnd.1 (hc ▸ hmem)
      unfold alookupD
      rw [alookup_cons_ne _ _ _ hne]
    rw [h1, Finset.sum_congr rfl h2, ih hnd.2]
    simp

theorem counter_sum_eq (w : List PEvent) (c : List (String × Nat))
    (hmatch : ∀ ip, alookupD c ip 0 = windowCount w ip)
    (hnd : (c.map Prod.fst).Nodup) :
    (c.map Prod.snd).sum = w.length := by
  classical
  have hsub : (Multiset.ofList (w.map (fun e => e.ip_address))).toFinset ⊆
      (c.map Prod.fst).toFinset := by
    intro a ha
    rw [Multiset.mem_toFinset] at ha
    have hmem : a ∈ w.map (fun e => e.ip_address) := ha
    have hpos : 0 < windowCount w a := by
      rw [windowCount_eq_count]
      exact List.count_pos_iff.2 hmem
    have hl := hmatch a
    cases hc : alookup c a with
    | none =>
      rw [alookupD, hc] at hl
      simp at hl
      omega
    | some v =>
      exact List.mem_toFinset.2 (mem_keys_of_alookup_eq_some c a v hc)
  have hzero : ∀ x ∈ (c.map Prod.fst).toFinset,
      x ∉ (Multiset.ofList (w.map (fun e => e.ip_address))).toFinset →
      Multiset.count x (Multiset.ofList (w.map (fun e => e.ip_address))) = 0 := by
    intro x _ hx
    rw [Multiset.count_eq_zero]
    intro hc
    exact hx (Multiset.mem_toFinset.2 hc)
  calc (c.map Prod.snd).sum
      = ∑ a ∈ (c.map Prod.fst).toFinset, alookupD c a 0 :=
        (sum_values_eq_sum_keys c hnd).symm
    _ = ∑ a ∈ (c.map Prod.fst).toFinset,
          Multiset.count a (Multiset.ofList (w.map (fun e => e.ip_address))) := by
        refine Finset.sum_congr rfl ?_
        intro a _
        rw [hmatch a, windowCount_eq_count, Multiset.coe_count]
    _ = ∑ a ∈ (Multiset.ofList (w.map (fun e => e.ip_address))).toFinset,
          Multiset.count a (Multiset.ofList (w.map (fun e => e.ip_address))) :=
        (Finset.sum_subset hsub hzero).symm
    _ = Multiset.card (Multiset.ofList (w.map (fun e => e.ip_address))) :=
        Multiset.toFinset_sum_count_eq _
    _ = w.length := by simp

/-- C9: after every `process_request` call (from a state satisfying the
window/counter invariant, with a clock not running backwards), the sliding
window contains only events whose timestamp is within `window_size` of the
current time, the per-source counter values sum to the window length, and
every stored source count is strictly positive; the invariant is preserved. -/
theorem claim_C9_profiler_window (s : ProfilerState) (ip path method : String)
    (now : ℚ) (hinv : ProfilerInv s)
    (hts : ∀ e ∈ s.request_window, e.timestamp ≤ now) :
    ProfilerInv (TrafficProfiler.processRequest s ip path method now) ∧
    (∀ e ∈ (TrafficProfiler.processRequest s ip path method now).request_window,
      0 ≤ now - e.timestamp ∧ now - e.timestamp ≤ s.window_size) ∧
    ((TrafficProfiler.processRequest s ip path method now).ip_counter.map Prod.snd).sum =
      (TrafficProfiler.processRequest s ip path method now).request_window.length ∧
    (∀ kv ∈ (TrafficProfiler.processRequest s ip path method now).ip_counter, 0 < kv.2) := by
  obtain ⟨hsort, hmatch, hval, hnd⟩ := hinv
  have hsort1 : (s.request_window ++ [(⟨ip, now, path, method⟩ : PEvent)]).Pairwise
      (fun a b => a.timestamp ≤ b.timestamp) := by
    refine List.pairwise_append.2 ⟨hsort, List.pairwise_singleton _ _, ?_⟩
    intro a ha b hb
    simp only [List.mem_singleton] at hb
    subst hb
    exact hts a ha
  have hmatch1 : ∀ ip', alookupD (counterInc s.ip_counter ip) ip' 0 =
      windowCount (s.request_window ++ [(⟨ip, now, path, method⟩ : PEvent)]) ip' := by
    intro ip'
    rw [windowCount_append]
    by_cases hip : ip' = ip
    · subst hip
      rw [counterInc_lookup_self, hmatch ip', windowCount_cons, windowCount_nil,
        if_pos rfl]
    · rw [counterInc_lookup_ne _ _ _ hip, hmatch ip', windowCount_cons, windowCount_nil,
        if_neg (fun hc => hip hc.symm)]
      omega
  have hval1 := counterInc_values s.ip_counter ip hval
  have hnd1 := counterInc_nodup s.ip_counter ip hnd
  have hspec := cleanLoop_spec s.window_size now
    (s.request_window ++ [(⟨ip, now, path, method⟩ : PEvent)]) (counterInc s.ip_counter ip)
    hsort1 hmatch1 hval1 hnd1
  obtain ⟨csort, cmatch, cval, cnd, cmem, cbound⟩ := hspec
  have hwin : (TrafficProfiler.processRequest s ip path method now).request_window =
      (cleanLoop s.window_size now (s.request_window ++ [(⟨ip, now, path, method⟩ : PEvent)])
        (counterInc s.ip_counter ip)).1 := rfl
  have hcnt : (TrafficProfiler.processRequest s ip path method now).ip_counter =
      (cleanLoop s.window_size now (s.request_window ++ [(⟨ip, now, path, method⟩ : PEvent)])
        (counterInc s.ip_counter ip)).2 := rfl
  refine ⟨⟨hwin ▸ csort, fun ip' => by rw [hwin, hcnt]; exact cmatch ip',
    fun kv hkv => cval kv (hcnt ▸ hkv), hcnt ▸ cnd⟩, ?_, ?_, ?_⟩
  · intro e he
    rw [hwin] at he
    have hin := cmem e he
    have hle : e.timestamp ≤ now := by
      rcases List.mem_append.1 hin with h | h
      · exact hts e h
      · simp only [List.mem_singleton] at h
        subst h
        exact le_refl _
    have hnb := cbound e he
    constructor
    · linarith
    · push_neg at hnb
      linarith
  · rw [hwin, hcnt]
    exact counter_sum_eq _ _ cmatch cnd
  · intro kv hkv
    rw [hcnt] at hkv
    exact Nat.pos_of_ne_zero (cval kv hkv)

theorem claim_C9_profiler_window_witness :
    ProfilerInv (TrafficProfiler.processRequest ⟨60, [], [], 0, 0⟩ "10.0.0.1" "/" "GET" 5) ∧
    (∀ e ∈ (TrafficProfiler.processRequest ⟨60, [], [], 0, 0⟩ "10.0.0.1" "/" "GET" 5).request_window,
      0 ≤ (5 : ℚ) - e.timestamp ∧ (5 : ℚ) - e.timestamp ≤ (60 : ℚ)) ∧
    ((TrafficProfiler.processRequest ⟨60, [], [], 0, 0⟩ "10.0.0.1" "/" "GET" 5).ip_counter.map
      Prod.snd).sum =
      (TrafficProfiler.processRequest ⟨60, [], [], 0, 0⟩ "10.0.0.1" "/" "GET" 5).request_window.length ∧
    (∀ kv ∈ (TrafficProfiler.processRequest ⟨60, [], [], 0, 0⟩ "10.0.0.1" "/" "GET" 5).ip_counter,
      0 < kv.2) :=
  claim_C9_profiler_window ⟨60, [], [], 0, 0⟩ "10.0.0.1" "/" "GET" 5
    ⟨List.Pairwise.nil, fun _ => rfl, by simp, by simp⟩ (by simp)

/-! ## AnomalyDetector (anomaly_detector.py)

`detect_anomalies` blends an entropy sub-score, a burst sub-score and an
isolation-forest sub-score 0.4/0.3/0.3, appends the features to a rolling
100-entry history and the scored record to a 1000-entry history.  The
isolation-forest fit/score (lines 154–172, wrapped in `try/except`) is
abstracted as an oracle `model : List (List ℚ) → Except String ℚ` returning
the raw `decision_function` value or an exception; the `model_trained`
bookkeeping only decides when `fit` is re-run and is folded into the oracle. -/

structure Metrics where
  requests_per_second : ℚ
  unique_ips : ℚ
  entropy_value : ℚ
  burst_score : ℚ
  total_requests : ℚ
deriving Repr, DecidableEq

structure AnomalyRecord where
  timestamp : ℚ
  anomaly_score : ℚ
  entropy_value : ℚ
  burst_score : ℚ
  unique_ips : ℚ
  total_requests : ℚ
deriving Repr, DecidableEq

structure DetectorState where
  entropy_threshold : ℚ
  burst_threshold : ℚ
  feature_history : List (List ℚ)
  anomaly_history : List AnomalyRecord
deriving Repr, DecidableEq

/-- `deque(maxlen := n)` append: keep the last `n` elements. -/
def pushBounded {α : Type} (n : Nat) (l : List α) (x : α) : List α :=
  (l ++ [x]).drop ((l ++ [x]).length - n)

namespace AnomalyDetector

/-- `_entropy_based_detection` (lines 95–120). -/
def entropyBasedDetection (d : DetectorState) (m : Metrics) : ℚ :=
  if m.entropy_value < 0.5 then
    1 - m.entropy_value
  else if m.entropy_value > d.entropy_threshold then
    min ((m.entropy_value - d.entropy_threshold) / (4 - d.entropy_threshold)) 1
  else
    0

/-- `_burst_detection` (lines 122–141). -/
def burstDetection (d : DetectorState) (m : Metrics) : ℚ :=
  if m.burst_score > d.burst_threshold then
    min ((m.burst_score - d.burst_threshold) / (10 - d.burst_threshold)) 1
  else
    0

/-- `_ml_based_detection` (lines 143–176): 0 below 50 samples, 0 on any
fit/score exception, otherwise the clamped rescaling of the raw model score. -/
def mlBasedDetection (hist : List (List ℚ))
    (model : List (List ℚ) → Except String ℚ) : ℚ :=
  if hist.length < 50 then 0
  else
    match model hist with
    | Except.error _ => 0
    | Except.ok raw => max 0 (min 1 (1 - (raw + 0.5) / 1.5))

/-- `detect_anomalies` (lines 44–93); the DB write of high scores is outside
the model. -/
def detectAnomalies (d : DetectorState) (m : Metrics)
    (model : List (List ℚ) → Except String ℚ) (now : ℚ) : ℚ × DetectorState :=
  let features := [m.requests_per_second, m.unique_ips, m.entropy_value, m.burst_score]
  let hist := pushBounded 100 d.feature_history features
  let entropy_score := entropyBasedDetection d m
  let burst_score := burstDetection d m
  let ml_score := mlBasedDetection hist model
  let combined := 0.4 * entropy_score + 0.3 * burst_score + 0.3 * ml_score
  let record : AnomalyRecord :=
    ⟨now, combined, m.entropy_value, m.burst_score, m.unique_ips, m.total_requests⟩
  (combined, { d with
    feature_history := hist
    anomaly_history := pushBounded 1000 d.anomaly_history record })

theorem detectAnomalies_fst (d : DetectorState) (m : Metrics)
    (model : List (List ℚ) → Except String ℚ) (now : ℚ) :
    (detectAnomalies d m model now).1 =
      0.4 * entropyBasedDetection d m + 0.3 * burstDetection d m +
        0.3 * mlBasedDetection
          (pushBounded 100 d.feature_history
            [m.requests_per_second, m.unique_ips, m.entropy_value, m.burst_score])
          model := rfl

theorem mlBasedDetection_range (hist : List (List ℚ))
    (model : List (List ℚ) → Except String ℚ) :
    0 ≤ mlBasedDetection hist model ∧ mlBasedDetection hist model ≤ 1 := by
  unfold mlBasedDetection
  split
  · norm_num
  · split
    · norm_num
    · constructor
      · exact le_max_left _ _
      · exact max_le (by norm_num) (min_le_left _ _)

theorem entropyBasedDetection_range (d : DetectorState) (m : Metrics)
    (hent : 0 ≤ m.entropy_value) (hth : d.entropy_threshold < 4) :
    0 ≤ entropyBasedDetection d m ∧ entropyBasedDetection d m ≤ 1 := by
  unfold entropyBasedDetection
  split
  · rename_i h
    constructor <;> linarith
  · split
    · rename_i hlow hhigh
      constructor
      · refine le_min ?_ (by norm_num)
        apply div_nonneg <;> linarith
      · exact min_le_right _ _
    · norm_num

theorem burstDetection_range (d : DetectorState) (m : Metrics)
    (hbt : d.burst_threshold < 10) :
    0 ≤ burstDetection d m ∧ burstDetection d m ≤ 1 := by
  unfold burstDetection
  split
  · rename_i h
    constructor
    · refine le_min ?_ (by norm_num)
      apply div_nonneg <;> linarith
    · exact min_le_right _ _
  · norm_num

/-- C1 (counterexample): the claim quantifies over *every* metrics input, but
on a metrics dictionary carrying a negative entropy value the low-entropy
branch returns `1 - entropy > 1`, and since `detect_anomalies` applies no
clamp, the combined score exceeds 1 (here: 0.4·3 = 1.2). -/
theorem claim_C1_score_range_counterexample :
    ¬ ((AnomalyDetector.detectAnomalies ⟨2, 3, [], []⟩ ⟨0, 0, -2, 0, 0⟩
        (fun _ => Except.error "model unavailable") 0).1 ≤ 1) := by
  rw [AnomalyDetector.detectAnomalies_fst]
  norm_num [AnomalyDetector.entropyBasedDetection, AnomalyDetector.burstDetection,
    AnomalyDetector.mlBasedDetection, pushBounded]

/-- C1 (amended): for every metrics input with a nonnegative entropy value
(which holds for all profiler-produced metrics, Shannon entropy being
nonnegative), and thresholds `entropy_threshold < 4`, `burst_threshold < 10`
(defaults 2 and 3), each sub-score lies in [0,1] and therefore the combined
weighted score 0.4·e + 0.3·b + 0.3·m lies in [0,1] without any explicit
clamping. -/
theorem claim_C1_score_range (d : DetectorState) (m : Metrics)
    (model : List (List ℚ) → Except String ℚ) (now : ℚ)
    (hent : 0 ≤ m.entropy_value) (hth : d.entropy_threshold < 4)
    (hbt : d.burst_threshold < 10) :
    (0 ≤ AnomalyDetector.entropyBasedDetection d m ∧
      AnomalyDetector.entropyBasedDetection d m ≤ 1) ∧
    (0 ≤ AnomalyDetector.burstDetection d m ∧
      AnomalyDetector.burstDetection d m ≤ 1) ∧
    (0 ≤ (AnomalyDetector.detectAnomalies d m model now).1 ∧
      (AnomalyDetector.detectAnomalies d m model now).1 ≤ 1) := by
  obtain ⟨he0, he1⟩ := AnomalyDetector.entropyBasedDetection_range d m hent hth
  obtain ⟨hb0, hb1⟩ := AnomalyDetector.burstDetection_range d m hbt
  obtain ⟨hm0, hm1⟩ := AnomalyDetector.mlBasedDetection_range
    (pushBounded 100 d.feature_history
      [m.requests_per_second, m.unique_ips, m.entropy_value, m.burst_score]) model
  refine ⟨⟨he0, he1⟩, ⟨hb0, hb1⟩, ?_, ?_⟩
  · rw [AnomalyDetector.detectAnomalies_fst]
    nlinarith
  · rw [AnomalyDetector.detectAnomalies_fst]
    nlinarith

theorem claim_C1_score_range_witness :
    (0 ≤ AnomalyDetector.entropyBasedDetection ⟨2, 3, [], []⟩ ⟨1, 5, 1, 0, 10⟩ ∧
      AnomalyDetector.entropyBasedDetection ⟨2, 3, [], []⟩ ⟨1, 5, 1, 0, 10⟩ ≤ 1) ∧
    (0 ≤ AnomalyDetector.burstDetection ⟨2, 3, [], []⟩ ⟨1, 5, 1, 0, 10⟩ ∧
      AnomalyDetector.burstDetection ⟨2, 3, [], []⟩ ⟨1, 5, 1, 0, 10⟩ ≤ 1) ∧
    (0 ≤ (AnomalyDetector.detectAnomalies ⟨2, 3, [], []⟩ ⟨1, 5, 1, 0, 10⟩
        (fun _ => Except.ok 0) 7).1 ∧
      (AnomalyDetector.detectAnomalies ⟨2, 3, [], []⟩ ⟨1, 5, 1, 0, 10⟩
        (fun _ => Except.ok 0) 7).1 ≤ 1) :=
  claim_C1_score_range ⟨2, 3, [], []⟩ ⟨1, 5, 1, 0, 10⟩ (fun _ => Except.ok 0) 7
    (by norm_num) (by norm_num) (by norm_num)

/-- C10: the outlier-model sub-score is 0 whenever fewer than 50 feature
vectors are accumulated; any model fit/score exception is caught inside
`_ml_based_detection` and replaced by 0; the detector pipeline is total and
on a model failure the combined score simply carries a 0 contribution. -/
theorem claim_C10_ml_errors (d : DetectorState) (m : Metrics)
    (model : List (List ℚ) → Except String ℚ) (now : ℚ) :
    (∀ hist, hist.length < 50 → AnomalyDetector.mlBasedDetection hist model = 0) ∧
    (∀ hist e, model hist = Except.error e →
      AnomalyDetector.mlBasedDetection hist model = 0) ∧
    (∀ e, model (pushBounded 100 d.feature_history
        [m.requests_per_second, m.unique_ips, m.entropy_value, m.burst_score]) =
          Except.error e →
      (AnomalyDetector.detectAnomalies d m model now).1 =
        0.4 * AnomalyDetector.entropyBasedDetection d m +
          0.3 * AnomalyDetector.burstDetection d m + 0.3 * 0) := by
  refine ⟨?_, ?_, ?_⟩
  · intro hist hlen
    unfold AnomalyDetector.mlBasedDetection
    rw [if_pos hlen]
  · intro hist e herr
    unfold AnomalyDetector.mlBasedDetection
    split
    · rfl
    · rw [herr]
  · intro e herr
    rw [AnomalyDetector.detectAnomalies_fst]
    congr 1
    congr 1
    unfold AnomalyDetector.mlBasedDetection
    split
    · rfl
    · rw [herr]

theorem claim_C10_ml_errors_witness :
    (AnomalyDetector.mlBasedDetection [] (fun _ => Except.error "numerical error") = 0) ∧
    (AnomalyDetector.mlBasedDetection (List.replicate 60 [0, 0, 0, 0])
      (fun _ => Except.error "numerical error") = 0) ∧
    ((AnomalyDetector.detectAnomalies ⟨2, 3, [], []⟩ ⟨1, 5, 1, 0, 10⟩
        (fun _ => Except.error "numerical error") 7).1 =
      0.4 * AnomalyDetector.entropyBasedDetection ⟨2, 3, [], []⟩ ⟨1, 5, 1, 0, 10⟩ +
        0.3 * AnomalyDetector.burstDetection ⟨2, 3, [], []⟩ ⟨1, 5, 1, 0, 10⟩ + 0.3 * 0) :=
  ⟨(claim_C10_ml_errors ⟨2, 3, [], []⟩ ⟨1, 5, 1, 0, 10⟩
      (fun _ => Except.error "numerical error") 7).1 [] (by norm_num),
   (claim_C10_ml_errors ⟨2, 3, [], []⟩ ⟨1, 5, 1, 0, 10⟩
      (fun _ => Except.error "numerical error") 7).2.1
      (List.replicate 60 [0, 0, 0, 0]) "numerical error" rfl,
   (claim_C10_ml_errors ⟨2, 3, [], []⟩ ⟨1, 5, 1, 0, 10⟩
      (fun _ => Except.error "numerical error") 7).2.2 "numerical error" rfl⟩

end AnomalyDetector

/-! ## Binary min-heap model for `heapq` (used by the threat queue)

`heapq.heapify` is modelled by the classic bottom-up sift-down heapify on a
list; `heapq.heappush` by append-and-bubble-up.  Both are parameterised by a
boolean comparison, instantiated later with Python's lexicographic tuple
comparison on `(neg_score, timestamp, ip)` entries. -/

/-- Swap two positions of a list (no-op when an index is out of bounds). -/
def lswap {α : Type} (l : List α) (i j : Nat) : List α :=
  match l[i]?, l[j]? with
  | some x, some y => (l.set i y).set j x
  | some _, none => l
  | none, _ => l

theorem lswap_eq {α : Type} (l : List α) (i j : Nat) (hi : i < l.length)
    (hj : j < l.length) :
    lswap l i j = (l.set i l[j]).set j l[i] := by
  unfold lswap
  rw [List.getElem?_eq_getElem hi, List.getElem?_eq_getElem hj]

theorem lswap_length {α : Type} (l : List α) (i j : Nat) :
    (lswap l i j).length = l.length := by
  unfold lswap
  rcases h1 : l[i]? with _ | x <;> rcases h2 : l[j]? with _ | y <;> simp

theorem count_set_set {α : Type} [DecidableEq α] (l : List α) (i j : Nat)
    (hi : i < l.length) (hj : j < l.length) (b : α) :
    List.count b ((l.set i l[j]).set j l[i]) = List.count b l := by
  have hjs : j < (l.set i l[j]).length := by simpa using hj
  have h1 := List.count_set l[i] b (l.set i l[j]) j hjs
  have h2 := List.count_set l[j] b l i hi
  have hset : (l.set i l[j])[j] = l[j] := by
    rw [List.getElem_set]
    split <;> rfl
  rw [hset] at h1
  by_cases hx : l[i] = b <;> by_cases hy : l[j] = b
  · have hcb : (1 : Nat) ≤ List.count b l :=
      List.count_pos_iff.2 (hx ▸ List.getElem_mem hi)
    rw [if_pos (beq_iff_eq.2 hy), if_pos (beq_iff_eq.2 hx)] at h1
    rw [if_pos (beq_iff_eq.2 hx), if_pos (beq_iff_eq.2 hy)] at h2
    omega
  · have hcb : (1 : Nat) ≤ List.count b l :=
      List.count_pos_iff.2 (hx ▸ List.getElem_mem hi)
    rw [if_neg (fun hc => hy (beq_iff_eq.1 hc)), if_pos (beq_iff_eq.2 hx)] at h1
    rw [if_pos (beq_iff_eq.2 hx), if_neg (fun hc => hy (beq_iff_eq.1 hc))] at h2
    omega
  · have hcb : (1 : Nat) ≤ List.count b l :=
      List.count_pos_iff.2 (hy ▸ List.getElem_mem hj)
    rw [if_pos (beq_iff_eq.2 hy), if_neg (fun hc => hx (beq_iff_eq.1 hc))] at h1
    rw [if_neg (fun hc => hx (beq_iff_eq.1 hc)), if_pos (beq_iff_eq.2 hy)] at h2
    omega
  · rw [if_neg (fun hc => hy (beq_iff_eq.1 hc)),
      if_neg (fun hc => hx (beq_iff_eq.1 hc))] at h1
    rw [if_neg (fun hc => hx (beq_iff_eq.1 hc)),
      if_neg (fun hc => hy (beq_iff_eq.1 hc))] at h2
    omega

theorem lswap_perm {α : Type} [DecidableEq α] (l : List α) (i j : Nat) :
    (lswap l i j).Perm l := by
  by_cases hi : i < l.length
  · by_cases hj : j < l.length
    · rw [lswap_eq l i j hi hj, List.perm_iff_count]
      intro b
      exact count_set_set l i j hi hj b
    · unfold lswap
      rw [List.getElem?_eq_none (show l.length ≤ j by omega)]
      rcases l[i]? with _ | x <;> rfl
  · unfold lswap
    rw [List.getElem?_eq_none (show l.length ≤ i by omega)]

theorem lswap_getElem?_ne {α : Type} (l : List α) (i j k : Nat)
    (hki : k ≠ i) (hkj : k ≠ j) : (lswap l i j)[k]? = l[k]? := by
  unfold lswap
  rcases h1 : l[i]? with _ | x <;> rcases h2 : l[j]? with _ | y <;> try rfl
  rw [List.getElem?_set_ne (fun hc => hkj hc.symm),
    List.getElem?_set_ne (fun hc => hki hc.symm)]

theorem lswap_getElem?_fst {α : Type} (l : List α) (i j : Nat)
    (hi : i < l.length) (hj : j < l.length) (hne : i ≠ j) :
    (lswap l i j)[i]? = some l[j] := by
  rw [lswap_eq l i j hi hj, List.getElem?_set_ne hne.symm,
    List.getElem?_set_self (by simpa using hi)]

theorem lswap_getElem?_snd {α : Type} (l : List α) (i j : Nat)
    (hi : i < l.length) (hj : j < l.length) :
    (lswap l i j)[j]? = some l[i] := by
  rw [lswap_eq l i j hi hj, List.getElem?_set_self (by simpa using hj)]

/-- `isDesc i j`: position `j` lies in the binary-heap subtree rooted at `i`
(ancestor chain through `(j-1)/2`). -/
def isDesc (i j : Nat) : Prop :=
  i = j ∨ (if h : 0 < j then isDesc i ((j - 1) / 2) else False)
termination_by j
decreasing_by omega

theorem isDesc_iff (i j : Nat) :
    isDesc i j ↔ i = j ∨ (0 < j ∧ isDesc i ((j - 1) / 2)) := by
  rw [isDesc]
  by_cases hj : 0 < j
  · rw [dif_pos hj]
    constructor
    · rintro (rfl | h)
      · exact Or.inl rfl
      · exact Or.inr ⟨hj, h⟩
    · rintro (rfl | ⟨_, h⟩)
      · exact Or.inl rfl
      · exact Or.inr h
  · rw [dif_neg hj]
    constructor
    · rintro (rfl | h)
      · exact Or.inl rfl
      · exact absurd h (by simp)
    · rintro (rfl | ⟨h0, _⟩)
      · exact Or.inl rfl
      · exact absurd h0 hj

theorem isDesc_refl (i : Nat) : isDesc i i :=
  (isDesc_iff i i).2 (Or.inl rfl)

theorem isDesc_le : ∀ j i : Nat, isDesc i j → i ≤ j := by
  intro j
  induction j using Nat.strong_induction_on with
  | _ j ih =>
    intro i h
    rw [isDesc_iff] at h
    rcases h with rfl | ⟨hj, hd⟩
    · exact le_refl _
    · have := ih ((j - 1) / 2) (by omega) i hd
      omega

theorem isDesc_child (i j : Nat) (h : j = 2 * i + 1 ∨ j = 2 * i + 2) :
    isDesc i j := by
  rw [isDesc_iff]
  right
  refine ⟨by omega, ?_⟩
  have hp : (j - 1) / 2 = i := by omega
  rw [hp]
  exact isDesc_refl i

theorem isDesc_trans : ∀ k i j : Nat, isDesc i j → isDesc j k → isDesc i k := by
  intro k
  induction k using Nat.strong_induction_on with
  | _ k ih =>
    intro i j hij hjk
    rw [isDesc_iff] at hjk
    rcases hjk with rfl | ⟨hk, hd⟩
    · exact hij
    · exact (isDesc_iff i k).2 (Or.inr ⟨hk, ih ((k - 1) / 2) (by omega) i j hij hd⟩)

theorem not_isDesc_of_lt (i j : Nat) (h : j < i) : ¬ isDesc i j :=
  fun hd => absurd (isDesc_le j i hd) (by omega)

theorem not_isDesc_child_sibling (i c o : Nat)
    (hc : c = 2 * i + 1 ∨ c = 2 * i + 2) (ho : o = 2 * i + 1 ∨ o = 2 * i + 2)
    (hne : o ≠ c) : ¬ isDesc c o := by
  intro hd
  rw [isDesc_iff] at hd
  rcases hd with rfl | ⟨h0, hd⟩
  · exact hne rfl
  · have hp : (o - 1) / 2 = i := by omega
    rw [hp] at hd
    have := isDesc_le i c hd
    omega

/-- One sift-down pass of min-heapify, fuelled (fuel `l.length` always
suffices to reach a leaf). -/
def siftDown {α : Type} (le : α → α → Bool) : Nat → List α → Nat → List α
  | 0, l, _ => l
  | fuel + 1, l, i =>
    if h1 : 2 * i + 2 < l.length then
      if le (l.get ⟨2 * i + 1, by omega⟩) (l.get ⟨2 * i + 2, h1⟩) then
        if le (l.get ⟨i, by omega⟩) (l.get ⟨2 * i + 1, by omega⟩) then l
        else siftDown le fuel (lswap l i (2 * i + 1)) (2 * i + 1)
      else
        if le (l.get ⟨i, by omega⟩) (l.get ⟨2 * i + 2, h1⟩) then l
        else siftDown le fuel (lswap l i (2 * i + 2)) (2 * i + 2)
    else if h2 : 2 * i + 1 < l.length then
      if le (l.get ⟨i, by omega⟩) (l.get ⟨2 * i + 1, h2⟩) then l
      else siftDown le fuel (lswap l i (2 * i + 1)) (2 * i + 1)
    else l

theorem siftDown_length {α : Type} (le : α → α → Bool) :
    ∀ fuel (l : List α) i, (siftDown le fuel l i).length = l.length
  | 0, _, _ => rfl
  | fuel + 1, l, i => by
    rw [siftDown]
    split
    · split
      · split
        · rfl
        · rw [siftDown_length le fuel, lswap_length]
      · split
        · rfl
        · rw [siftDown_length le fuel, lswap_length]
    · split
      · split
        · rfl
        · rw [siftDown_length le fuel, lswap_length]
      · rfl

theorem siftDown_perm {α : Type} [DecidableEq α] (le : α → α → Bool) :
    ∀ fuel (l : List α) i, (siftDown le fuel l i).Perm l
  | 0, l, _ => List.Perm.refl l
  | fuel + 1, l, i => by
    rw [siftDown]
    split
    · split
      · split
        · exact List.Perm.refl l
        · exact (siftDown_perm le fuel _ _).trans (lswap_perm l i (2 * i + 1))
      · split
        · exact List.Perm.refl l
        · exact (siftDown_perm le fuel _ _).trans (lswap_perm l i (2 * i + 2))
    · split
      · split
        · exact List.Perm.refl l
        · exact (siftDown_perm le fuel _ _).trans (lswap_perm l i (2 * i + 1))
      · exact List.Perm.refl l

theorem get_congr_of_getElem? {α : Type} (l1 l2 : List α) (n : Nat)
    (h1 : n < l1.length) (h2 : n < l2.length) (he : l1[n]? = l2[n]?) :
    l1.get ⟨n, h1⟩ = l2.get ⟨n, h2⟩ := by
  rw [List.get_eq_getElem, List.get_eq_getElem]
  have h := (List.getElem?_eq_getElem h1).symm.trans (he.trans (List.getElem?_eq_getElem h2))
  exact Option.some.inj h

theorem siftDown_getElem?_off {α : Type} (le : α → α → Bool) :
    ∀ fuel (l : List α) i j, ¬ isDesc i j → (siftDown le fuel l i)[j]? = l[j]?
  | 0, l, i, j => fun _ => rfl
  | fuel + 1, l, i, j => by
    intro hnd
    have hji : j ≠ i := fun hc => hnd (hc ▸ isDesc_refl i)
    have hstep : ∀ c, (c = 2 * i + 1 ∨ c = 2 * i + 2) →
        (siftDown le fuel (lswap l i c) c)[j]? = l[j]? := by
      intro c hcc
      have hjc : j ≠ c := fun hc' => hnd (hc'.symm ▸ isDesc_child i c hcc)
      have hcd : ¬ isDesc c j := fun hd =>
        hnd (isDesc_trans j i c (isDesc_child i c hcc) hd)
      rw [siftDown_getElem?_off le fuel _ c j hcd]
      exact lswap_getElem?_ne l i c j hji hjc
    rw [siftDown]
    split
    · split
      · split
        · rfl
        · exact hstep (2 * i + 1) (Or.inl rfl)
      · split
        · rfl
        · exact hstep (2 * i + 2) (Or.inr rfl)
    · split
      · split
        · rfl
        · exact hstep (2 * i + 1) (Or.inl rfl)
      · rfl

theorem siftDown_root {α : Type} (le : α → α → Bool) :
    ∀ fuel (l : List α) i,
      (siftDown le fuel l i)[i]? = l[i]? ∨
      (siftDown le fuel l i)[i]? = l[2 * i + 1]? ∨
      (siftDown le fuel l i)[i]? = l[2 * i + 2]?
  | 0, _, _ => Or.inl rfl
  | fuel + 1, l, i => by
    have hstep : ∀ c, (c = 2 * i + 1 ∨ c = 2 * i + 2) → c < l.length → i < l.length →
        (siftDown le fuel (lswap l i c) c)[i]? = l[c]? := by
      intro c hcc hclen hilen
      have hnd : ¬ isDesc c i := not_isDesc_of_lt c i (by omega)
      rw [siftDown_getElem?_off le fuel _ c i hnd]
      rw [lswap_getElem?_fst l i c hilen hclen (by omega)]
      rw [List.getElem?_eq_getElem hclen]
    rw [siftDown]
    split
    · rename_i h1
      split
      · split
        · exact Or.inl rfl
        · exact Or.inr (Or.inl (hstep (2 * i + 1) (Or.inl rfl) (by omega) (by omega)))
      · split
        · exact Or.inl rfl
        · exact Or.inr (Or.inr (hstep (2 * i + 2) (Or.inr rfl) h1 (by omega)))
    · split
      · rename_i h1 h2
        split
        · exact Or.inl rfl
        · exact Or.inr (Or.inl (hstep (2 * i + 1) (Or.inl rfl) h2 (by omega)))
      · exact Or.inl rfl

/-- Pairs `(parent, child)` with `parent ≥ k` satisfy the heap ordering. -/
def HeapFrom {α : Type} (le : α → α → Bool) (l : List α) (k : Nat) : Prop :=
  ∀ p j (hp : p < l.length) (hj : j < l.length),
    (j = 2 * p + 1 ∨ j = 2 * p + 2) → k ≤ p →
    le (l.get ⟨p, hp⟩) (l.get ⟨j, hj⟩) = true

/-- The binary min-heap property (every parent at most its children). -/
def IsMinHeap {α : Type} (le : α → α → Bool) (l : List α) : Prop :=
  HeapFrom le l 0

theorem siftDown_swap_heapFrom {α : Type} (le : α → α → Bool)
    (_htr : ∀ x y z, le x y = true → le y z = true → le x z = true)
    (fuel : Nat) (l : List α) (i c : Nat)
    (hcc : c = 2 * i + 1 ∨ c = 2 * i + 2) (hclen : c < l.length)
    (hilen : i < l.length) (hfuel : l.length ≤ fuel + c)
    (hmin : ∀ o (ho : o < l.length), (o = 2 * i + 1 ∨ o = 2 * i + 2) →
      le (l.get ⟨c, hclen⟩) (l.get ⟨o, ho⟩) = true)
    (hroot : le (l.get ⟨c, hclen⟩) (l.get ⟨i, hilen⟩) = true)
    (H : ∀ p j (hp : p < l.length) (hj : j < l.length),
      (j = 2 * p + 1 ∨ j = 2 * p + 2) → i < p →
      le (l.get ⟨p, hp⟩) (l.get ⟨j, hj⟩) = true)
    (IH : ∀ (l' : List α) i', l'.length ≤ fuel + i' →
      (∀ p j (hp : p < l'.length) (hj : j < l'.length),
        (j = 2 * p + 1 ∨ j = 2 * p + 2) → i' < p →
        le (l'.get ⟨p, hp⟩) (l'.get ⟨j, hj⟩) = true) →
      HeapFrom le (siftDown le fuel l' i') i') :
    HeapFrom le (siftDown le fuel (lswap l i c) c) i := by
  have hic : i < c := by omega
  have hlen1 : (lswap l i c).length = l.length := lswap_length l i c
  have hreslen : (siftDown le fuel (lswap l i c) c).length = l.length := by
    rw [siftDown_length, hlen1]
  -- transfer a pair of positions untouched by both the swap and the recursion
  have htransfer : ∀ n (hn : n < (siftDown le fuel (lswap l i c) c).length)
      (hn' : n < l.length), n ≠ i → n ≠ c → ¬ isDesc c n →
      (siftDown le fuel (lswap l i c) c).get ⟨n, hn⟩ = l.get ⟨n, hn'⟩ := by
    intro n hn hn' hni hnc hnd
    refine get_congr_of_getElem? _ _ n hn hn' ?_
    rw [siftDown_getElem?_off le fuel _ c n hnd]
    exact lswap_getElem?_ne l i c n hni hnc
  have H1 : ∀ p j (hp : p < (lswap l i c).length) (hj : j < (lswap l i c).length),
      (j = 2 * p + 1 ∨ j = 2 * p + 2) → c < p →
      le ((lswap l i c).get ⟨p, hp⟩) ((lswap l i c).get ⟨j, hj⟩) = true := by
    intro p j hp hj hchild hpc
    have hp' : p < l.length := by omega
    have hj' : j < l.length := by omega
    have hgp : (lswap l i c).get ⟨p, hp⟩ = l.get ⟨p, hp'⟩ :=
      get_congr_of_getElem? _ _ p hp hp'
        (lswap_getElem?_ne l i c p (by omega) (by omega))
    have hgj : (lswap l i c).get ⟨j, hj⟩ = l.get ⟨j, hj'⟩ :=
      get_congr_of_getElem? _ _ j hj hj'
        (lswap_getElem?_ne l i c j (by omega) (by omega))
    rw [hgp, hgj]
    exact H p j hp' hj' hchild (by omega)
  have hres : HeapFrom le (siftDown le fuel (lswap l i c) c) c :=
    IH (lswap l i c) c (by omega) H1
  intro p j hp hj hchild hip
  by_cases hpc : c ≤ p
  · exact hres p j hp hj hchild hpc
  · push_neg at hpc
    have hp' : p < l.length := by omega
    have hj' : j < l.length := by omega
    by_cases hpi : p = i
    · subst hpi
      -- the root now holds the old minimum child
      have hval0 : (siftDown le fuel (lswap l p c) c)[p]? = some (l.get ⟨c, hclen⟩) := by
        rw [siftDown_getElem?_off le fuel _ c p (not_isDesc_of_lt c p hpc),
          lswap_getElem?_fst l p c hp' hclen (by omega), List.get_eq_getElem]
      have hrootval : (siftDown le fuel (lswap l p c) c).get ⟨p, hp⟩ =
          l.get ⟨c, hclen⟩ := by
        rw [List.get_eq_getElem]
        exact Option.some.inj ((List.getElem?_eq_getElem hp).symm.trans hval0)
      rw [hrootval]
      by_cases hjc : j = c
      · subst hjc
        -- the swapped-down child position: old root or an old grandchild
        rcases siftDown_root le fuel (lswap l p j) j with hr | hr | hr
        · have hv : (siftDown le fuel (lswap l p j) j)[j]? = some (l.get ⟨p, hp'⟩) := by
            rw [hr, lswap_getElem?_snd l p j hp' hj', List.get_eq_getElem]
          have hgv : (siftDown le fuel (lswap l p j) j).get ⟨j, hj⟩ = l.get ⟨p, hp'⟩ := by
            rw [List.get_eq_getElem]
            exact Option.some.inj ((List.getElem?_eq_getElem hj).symm.trans hv)
          rw [hgv]
          exact hroot
        · have hg : (lswap l p j)[2 * j + 1]? = some ((siftDown le fuel (lswap l p j) j).get ⟨j, hj⟩) := by
            rw [← hr, List.getElem?_eq_getElem (by omega), List.get_eq_getElem]
          have hglen : 2 * j + 1 < l.length := by
            by_contra hcon
            rw [List.getElem?_eq_none (by omega)] at hg
            exact Option.noConfusion hg
          have : (lswap l p j)[2 * j + 1]? = l[2 * j + 1]? :=
            lswap_getElem?_ne l p j (2 * j + 1) (by omega) (by omega)
          rw [this, List.getElem?_eq_getElem hglen] at hg
          have hval : (siftDown le fuel (lswap l p j) j).get ⟨j, hj⟩ =
              l.get ⟨2 * j + 1, hglen⟩ := by
            rw [List.get_eq_getElem, List.get_eq_getElem]
            exact (Option.some.inj hg).symm
          rw [hval]
          exact H j (2 * j + 1) hclen hglen (Or.inl rfl) (by omega)
        · have hg : (lswap l p j)[2 * j + 2]? = some ((siftDown le fuel (lswap l p j) j).get ⟨j, hj⟩) := by
            rw [← hr, List.getElem?_eq_getElem (by omega), List.get_eq_getElem]
          have hglen : 2 * j + 2 < l.length := by
            by_contra hcon
            rw [List.getElem?_eq_none (by omega)] at hg
            exact Option.noConfusion hg
          have : (lswap l p j)[2 * j + 2]? = l[2 * j + 2]? :=
            lswap_getElem?_ne l p j (2 * j + 2) (by omega) (by omega)
          rw [this, List.getElem?_eq_getElem hglen] at hg
          have hval : (siftDown le fuel (lswap l p j) j).get ⟨j, hj⟩ =
              l.get ⟨2 * j + 2, hglen⟩ := by
            rw [List.get_eq_getElem, List.get_eq_getElem]
            exact (Option.some.inj hg).symm
          rw [hval]
          exact H j (2 * j + 2) hclen hglen (Or.inr rfl) (by omega)
      · -- the untouched sibling child
        have hnd : ¬ isDesc c j := not_isDesc_child_sibling p c j hcc hchild hjc
        have : (siftDown le fuel (lswap l p c) c).get ⟨j, hj⟩ = l.get ⟨j, hj'⟩ :=
          htransfer j hj hj' (by omega) hjc hnd
        rw [this]
        exact hmin j hj' hchild
    · -- strictly between i and c: the pair sits outside the subtree of c
      have hcle : c ≤ 2 * i + 2 := by rcases hcc with h | h <;> omega
      have hjgt : c < j := by rcases hchild with h | h <;> omega
      have hpar : (j - 1) / 2 = p := by rcases hchild with h | h <;> omega
      have hndp : ¬ isDesc c p := not_isDesc_of_lt c p hpc
      have hndj : ¬ isDesc c j := by
        intro hd
        rw [isDesc_iff] at hd
        rcases hd with rfl | ⟨h0, hd⟩
        · omega
        · rw [hpar] at hd
          exact hndp hd
      have hgp := htransfer p hp hp' (by omega) (by omega) hndp
      have hgj := htransfer j hj hj' (by omega) (by omega) hndj
      rw [hgp, hgj]
      exact H p j hp' hj' hchild (by omega)

theorem siftDown_heapFrom {α : Type} (le : α → α → Bool)
    (htot : ∀ x y, le x y = true ∨ le y x = true)
    (htr : ∀ x y z, le x y = true → le y z = true → le x z = true) :
    ∀ fuel (l : List α) i, l.length ≤ fuel + i →
    (∀ p j (hp : p < l.length) (hj : j < l.length),
      (j = 2 * p + 1 ∨ j = 2 * p + 2) → i < p →
      le (l.get ⟨p, hp⟩) (l.get ⟨j, hj⟩) = true) →
    HeapFrom le (siftDown le fuel l i) i
  | 0, l, i => by
    intro hfuel H p j hp hj hchild hip
    exfalso
    have hp2 : p < l.length := by simpa [siftDown] using hp
    omega
  | fuel + 1, l, i => by
    intro hfuel H
    rw [siftDown]
    split
    · rename_i h1
      have hl : 2 * i + 1 < l.length := by omega
      have hi : i < l.length := by omega
      split
      · rename_i hle
        split
        · rename_i hroot
          intro p j hp hj hchild hip
          rcases Nat.lt_or_ge i p with hlt | hge
          · exact H p j hp hj hchild hlt
          · have hpi : p = i := by omega
            subst hpi
            rcases hchild with rfl | rfl
            · exact hroot
            · exact htr _ _ _ hroot hle
        · rename_i hroot
          refine siftDown_swap_heapFrom le htr fuel l i (2 * i + 1) (Or.inl rfl) hl hi
            (by omega) ?_ ?_ H ?_
          · intro o ho hoc
            rcases hoc with rfl | rfl
            · rcases htot (l.get ⟨2 * i + 1, hl⟩) (l.get ⟨2 * i + 1, hl⟩) with h | h <;>
                exact h
            · exact hle
          · rcases htot (l.get ⟨i, hi⟩) (l.get ⟨2 * i + 1, hl⟩) with h | h
            · exact absurd h (by simpa using hroot)
            · exact h
          · intro l' i' hf H'
            exact siftDown_heapFrom le htot htr fuel l' i' hf H'
      · rename_i hle
        split
        · rename_i hroot
          intro p j hp hj hchild hip
          rcases Nat.lt_or_ge i p with hlt | hge
          · exact H p j hp hj hchild hlt
          · have hpi : p = i := by omega
            subst hpi
            rcases hchild with rfl | rfl
            · rcases htot (l.get ⟨2 * p + 1, hl⟩) (l.get ⟨2 * p + 2, h1⟩) with h | h
              · exact absurd h (by simpa using hle)
              · exact htr _ _ _ hroot h
            · exact hroot
        · rename_i hroot
          refine siftDown_swap_heapFrom le htr fuel l i (2 * i + 2) (Or.inr rfl) h1 hi
            (by omega) ?_ ?_ H ?_
          · intro o ho hoc
            rcases hoc with rfl | rfl
            · rcases htot (l.get ⟨2 * i + 1, hl⟩) (l.get ⟨2 * i + 2, h1⟩) with h | h
              · exact absurd h (by simpa using hle)
              · exact h
            · rcases htot (l.get ⟨2 * i + 2, h1⟩) (l.get ⟨2 * i + 2, h1⟩) with h | h <;>
                exact h
          · rcases htot (l.get ⟨i, hi⟩) (l.get ⟨2 * i + 2, h1⟩) with h | h
            · exact absurd h (by simpa using hroot)
            · exact h
          · intro l' i' hf H'
            exact siftDown_heapFrom le htot htr fuel l' i' hf H'
    · split
      · rename_i h1 h2
        have hi : i < l.length := by omega
        split
        · rename_i hroot
          intro p j hp hj hchild hip
          rcases Nat.lt_or_ge i p with hlt | hge
          · exact H p j hp hj hchild hlt
          · have hpi : p = i := by omega
            subst hpi
            rcases hchild with rfl | rfl
            · exact hroot
            · exact absurd hj (by omega)
        · rename_i hroot
          refine siftDown_swap_heapFrom le htr fuel l i (2 * i + 1) (Or.inl rfl) h2 hi
            (by omega) ?_ ?_ H ?_
          · intro o ho hoc
            rcases hoc with rfl | rfl
            · rcases htot (l.get ⟨2 * i + 1, h2⟩) (l.get ⟨2 * i + 1, h2⟩) with h | h <;>
                exact h
            · exact absurd ho (by omega)
          · rcases htot (l.get ⟨i, hi⟩) (l.get ⟨2 * i + 1, h2⟩) with h | h
            · exact absurd h (by simpa using hroot)
            · exact h
          · intro l' i' hf H'
            exact siftDown_heapFrom le htot htr fuel l' i' hf H'
      · rename_i h1 h2
        intro p j hp hj hchild hip
        rcases Nat.lt_or_ge i p with hlt | hge
        · exact H p j hp hj hchild hlt
        · have hpi : p = i := by omega
          subst hpi
          exfalso
          rcases hchild with rfl | rfl <;> omega

/-- The bottom-up heapify loop: `for i in reversed(range(n//2)): siftDown i`. -/
def heapifyLoop {α : Type} (le : α → α → Bool) : Nat → List α → List α
  | 0, l => l
  | k + 1, l => heapifyLoop le k (siftDown le l.length l k)

/-- `heapq.heapify`. -/
def heapify {α : Type} (le : α → α → Bool) (l : List α) : List α :=
  heapifyLoop le (l.length / 2) l

theorem heapifyLoop_length {α : Type} (le : α → α → Bool) :
    ∀ k (l : List α), (heapifyLoop le k l).length = l.length
  | 0, _ => rfl
  | k + 1, l => by
    rw [heapifyLoop, heapifyLoop_length le k, siftDown_length]

theorem heapifyLoop_perm {α : Type} [DecidableEq α] (le : α → α → Bool) :
    ∀ k (l : List α), (heapifyLoop le k l).Perm l
  | 0, l => List.Perm.refl l
  | k + 1, l => by
    rw [heapifyLoop]
    exact (heapifyLoop_perm le k _).trans (siftDown_perm le l.length l k)

theorem heapifyLoop_heapFrom {α : Type} (le : α → α → Bool)
    (htot : ∀ x y, le x y = true ∨ le y x = true)
    (htr : ∀ x y z, le x y = true → le y z = true → le x z = true) :
    ∀ k (l : List α),
    (∀ p j (hp : p < l.length) (hj : j < l.length),
      (j = 2 * p + 1 ∨ j = 2 * p + 2) → k ≤ p →
      le (l.get ⟨p, hp⟩) (l.get ⟨j, hj⟩) = true) →
    IsMinHeap le (heapifyLoop le k l)
  | 0, l => by
    intro H p j hp hj hchild _
    exact H p j hp hj hchild (Nat.zero_le p)
  | k + 1, l => by
    intro H
    rw [heapifyLoop]
    refine heapifyLoop_heapFrom le htot htr k (siftDown le l.length l k) ?_
    have hHF : HeapFrom le (siftDown le l.length l k) k :=
      siftDown_heapFrom le htot htr l.length l k (by omega)
        (fun p j hp hj hchild hkp => H p j hp hj hchild (by omega))
    intro p j hp hj hchild hkp
    exact hHF p j hp hj hchild hkp

theorem heapify_isMinHeap {α : Type} (le : α → α → Bool)
    (htot : ∀ x y, le x y = true ∨ le y x = true)
    (htr : ∀ x y z, le x y = true → le y z = true → le x z = true)
    (l : List α) : IsMinHeap le (heapify le l) := by
  refine heapifyLoop_heapFrom le htot htr (l.length / 2) l ?_
  intro p j hp hj hchild hkp
  exfalso
  rcases hchild with rfl | rfl <;> omega

theorem heapify_perm {α : Type} [DecidableEq α] (le : α → α → Bool) (l : List α) :
    (heapify le l).Perm l :=
  heapifyLoop_perm le (l.length / 2) l

theorem heapify_length {α : Type} (le : α → α → Bool) (l : List α) :
    (heapify le l).length = l.length :=
  heapifyLoop_length le (l.length / 2) l

/-! ## MitigationSystem (mitigation.py)

State model: floats as `ℚ`, `time.time()` as an explicit `now` parameter,
`random` draws as a `MitOracle` value, and the `BlockedIP` database table as
the `blocked` list.  `get_count()` internally re-runs the window cleanup; at a
fixed `now` this never changes the count, and the cleaned counter state is
threaded where the source keeps it. -/

/-- Priority-queue entry `(neg_threat_score, timestamp, ip_address)`. -/
abbrev QEntry : Type := ℚ × ℚ × String

/-- Python string `<`: lexicographic comparison by code point. -/
def charListLt : List Char → List Char → Bool
  | [], [] => false
  | [], _ :: _ => true
  | _ :: _, [] => false
  | a :: as, b :: bs => if a < b then true else if a = b then charListLt as bs else false

theorem charListLt_trichotomy : ∀ x y : List Char,
    charListLt x y = true ∨ x = y ∨ charListLt y x = true
  | [], [] => Or.inr (Or.inl rfl)
  | [], _ :: _ => Or.inl rfl
  | _ :: _, [] => Or.inr (Or.inr rfl)
  | a :: as, b :: bs => by
    rcases lt_trichotomy a b with h | h | h
    · left
      simp [charListLt, h]
    · subst h
      rcases charListLt_trichotomy as bs with h2 | h2 | h2
      · left
        simp [charListLt, h2]
      · subst h2
        right; left; rfl
      · right; right
        simp [charListLt, h2]
    · right; right
      simp [charListLt, h]

theorem charListLt_trans : ∀ x y z : List Char,
    charListLt x y = true → charListLt y z = true → charListLt x z = true
  | _, y, [] => by
    intro _ h
    cases y <;> simp [charListLt] at h
  | x, [], _ :: _ => by
    intro h _
    cases x <;> simp [charListLt] at h
  | [], _ :: _, _ :: _ => by intro _ _; rfl
  | a :: as, b :: bs, c :: cs => by
    intro h1 h2
    simp only [charListLt] at h1 h2 ⊢
    by_cases hab : a < b
    · by_cases hbc : b < c
      · rw [if_pos (lt_trans hab hbc)]
      · by_cases hbc2 : b = c
        · rw [if_pos (hbc2 ▸ hab)]
        · rw [if_neg hbc, if_neg hbc2] at h2
          simp at h2
    · by_cases hab2 : a = b
      · subst hab2
        rw [if_neg hab, if_pos rfl] at h1
        by_cases hbc : a < c
        · rw [if_pos hbc]
        · by_cases hbc2 : a = c
          · rw [if_neg hbc, if_pos hbc2]
            rw [if_neg hbc, if_pos hbc2] at h2
            exact charListLt_trans as bs cs h1 h2
          · rw [if_neg hbc, if_neg hbc2] at h2
            simp at h2
      · rw [if_neg hab, if_neg hab2] at h1
        simp at h1

/-- Python tuple comparison `x < y` on queue entries (lexicographic; strings
compared by code points as Python does). -/
def entryLT (x y : QEntry) : Bool :=
  decide (x.1 < y.1) ||
    (decide (x.1 = y.1) &&
      (decide (x.2.1 < y.2.1) ||
        (decide (x.2.1 = y.2.1) && charListLt x.2.2.data y.2.2.data)))

/-- Python tuple comparison `x <= y` on queue entries (lexicographic). -/
def entryLE (x y : QEntry) : Bool :=
  decide (x.1 < y.1) ||
    (decide (x.1 = y.1) &&
      (decide (x.2.1 < y.2.1) ||
        (decide (x.2.1 = y.2.1) && (charListLt x.2.2.data y.2.2.data || x.2.2.data == y.2.2.data))))

theorem entryLE_total (x y : QEntry) : entryLE x y = true ∨ entryLE y x = true := by
  unfold entryLE
  simp only [Bool.or_eq_true, Bool.and_eq_true, decide_eq_true_eq, beq_iff_eq]
  rcases lt_trichotomy x.1 y.1 with h | h | h
  · exact Or.inl (Or.inl h)
  · rcases lt_trichotomy x.2.1 y.2.1 with h2 | h2 | h2
    · exact Or.inl (Or.inr ⟨h, Or.inl h2⟩)
    · rcases charListLt_trichotomy x.2.2.data y.2.2.data with h3 | h3 | h3
      · exact Or.inl (Or.inr ⟨h, Or.inr ⟨h2, Or.inl h3⟩⟩)
      · exact Or.inl (Or.inr ⟨h, Or.inr ⟨h2, Or.inr h3⟩⟩)
      · exact Or.inr (Or.inr ⟨h.symm, Or.inr ⟨h2.symm, Or.inl h3⟩⟩)
    · exact Or.inr (Or.inr ⟨h.symm, Or.inl h2⟩)
  · exact Or.inr (Or.inl h)

theorem entryLE_trans (x y z : QEntry) (hxy : entryLE x y = true)
    (hyz : entryLE y z = true) : entryLE x z = true := by
  unfold entryLE at *
  simp only [Bool.or_eq_true, Bool.and_eq_true, decide_eq_true_eq, beq_iff_eq] at *
  rcases hxy with h1 | ⟨h1, h2⟩
  · rcases hyz with g1 | ⟨g1, _⟩
    · exact Or.inl (lt_trans h1 g1)
    · exact Or.inl (lt_of_lt_of_eq h1 g1)
  · rcases hyz with g1 | ⟨g1, g2⟩
    · exact Or.inl (lt_of_eq_of_lt h1 g1)
    · refine Or.inr ⟨h1.trans g1, ?_⟩
      rcases h2 with h2 | ⟨h2a, h2b⟩
      · rcases g2 with g2 | ⟨g2a, _⟩
        · exact Or.inl (lt_trans h2 g2)
        · exact Or.inl (lt_of_lt_of_eq h2 g2a)
      · rcases g2 with g2 | ⟨g2a, g2b⟩
        · exact Or.inl (lt_of_eq_of_lt h2a g2)
        · refine Or.inr ⟨h2a.trans g2a, ?_⟩
          rcases h2b with h2b | h2b
          · rcases g2b with g2b | g2b
            · exact Or.inl (charListLt_trans _ _ _ h2b g2b)
            · exact Or.inl (g2b ▸ h2b)
          · rcases g2b with g2b | g2b
            · exact Or.inl (h2b ▸ g2b)
            · exact Or.inr (h2b.trans g2b)

/-- Bubble-up pass of `heapq.heappush` (python `_siftdown`), fuelled. -/
def siftUp {α : Type} (lt : α → α → Bool) : Nat → List α → Nat → List α
  | 0, l, _ => l
  | fuel + 1, l, i =>
    if h : 0 < i ∧ i < l.length then
      if lt (l.get ⟨i, h.2⟩) (l.get ⟨(i - 1) / 2, by omega⟩) then
        siftUp lt fuel (lswap l i ((i - 1) / 2)) ((i - 1) / 2)
      else l
    else l

/-- `heapq.heappush`. -/
def heapPush {α : Type} (lt : α → α → Bool) (l : List α) (x : α) : List α :=
  siftUp lt (l ++ [x]).length (l ++ [x]) ((l ++ [x]).length - 1)

theorem siftUp_length {α : Type} (lt : α → α → Bool) :
    ∀ fuel (l : List α) i, (siftUp lt fuel l i).length = l.length
  | 0, _, _ => rfl
  | fuel + 1, l, i => by
    rw [siftUp]
    split
    · split
      · rw [siftUp_length lt fuel, lswap_length]
      · rfl
    · rfl

theorem heapPush_length {α : Type} (lt : α → α → Bool) (l : List α) (x : α) :
    (heapPush lt l x).length = l.length + 1 := by
  rw [heapPush, siftUp_length]
  simp

/-- Rebuild pass over the threat queue (mitigation.py lines 212–220): keep the
entries younger than one hour, then `heapq.heapify` the survivors. -/
def pruneQueue (now : ℚ) (q : List QEntry) : List QEntry :=
  heapify entryLE (q.filter (fun e => e.2.1 > now - 3600))

/-- Sliding window counter (mitigation.py lines 67–93); events are
`(timestamp, amount)` pairs. -/
structure SWCounter where
  window_size : ℚ
  events : List (ℚ × ℚ)
deriving Repr, DecidableEq

def SWCounter.cleanup (c : SWCounter) (now : ℚ) : SWCounter :=
  { c with events := c.events.dropWhile (fun e => e.1 < now - c.window_size) }

def SWCounter.increment (c : SWCounter) (now : ℚ) (amount : ℚ) : SWCounter :=
  SWCounter.cleanup { c with events := c.events ++ [(now, amount)] } now

def SWCounter.getCount (c : SWCounter) (now : ℚ) : ℚ × SWCounter :=
  let c2 := SWCounter.cleanup c now
  ((c2.events.map Prod.snd).sum, c2)

/-- Graph node for an IP (mitigation.py lines 10–32). -/
structure IPNode where
  ip_address : String
  connections : List String
  weight : ℚ
  last_seen : ℚ
  threat_score : ℚ
deriving Repr, DecidableEq

def IPNode.init (ip : String) (now : ℚ) : IPNode :=
  ⟨ip, [], 1, now, 0⟩

def IPNode.updateWeight (n : IPNode) (delta now : ℚ) : IPNode :=
  { n with weight := n.weight * 0.95 + delta * 0.05, last_seen := now }

structure CacheEntry where
  score : ℚ
  last_seen : ℚ
  request_rate : ℚ
  total_requests : ℚ
deriving Repr, DecidableEq

structure BlockRecord where
  ip_address : String
  severity : String
  blocked_at : ℚ
  expiration : Option ℚ
deriving Repr, DecidableEq

structure ActionRecord where
  timestamp : ℚ
  ip_address : String
  action : String
  score : ℚ
  request_rate : ℚ
  threat_level : ℚ
deriving Repr, DecidableEq

/-- The `random` draws a single `mitigate` call can consume: the 5% pruning
draw, `randint(1, 223)` for the first octet, the `choice` index over the
replacement octets, and the three remaining octet draws. -/
structure MitOracle where
  prune : Bool
  o1 : Nat
  orep : Nat
  oa : Nat
  ob : Nat
  oc : Nat
deriving Repr, DecidableEq

structure MitState where
  light_threshold : ℚ
  medium_threshold : ℚ
  severe_threshold : ℚ
  recent_ips : LRUCache CacheEntry
  ip_graph : List (String × IPNode)
  threat_queue : List QEntry
  global_counter : SWCounter
  ip_counters : List (String × SWCounter)
  rate_limits : List (String × Nat)
  ip_scores : List (String × ℚ)
  mitigation_actions : List ActionRecord
  active_mitigations : Nat
  blocked : List BlockRecord
deriving Repr, DecidableEq

/-- `MitigationSystem.__init__`: thresholds 0.4/0.6/0.8, LRU capacity 1000,
5-minute global window, empty structures, empty block table. -/
def initState : MitState :=
  ⟨0.4, 0.6, 0.8, ⟨1000, []⟩, [], [], ⟨300, []⟩, [], [], [], [], 0, []⟩

namespace MitigationSystem

/-- Source line 172: `ip.startswith('192.168.') or '.' not in ip`. -/
def isSimulationIP (ip : String) : Bool :=
  pyStartsWith ip "192.168." || !(pyContainsDot ip)

/-- Source line 176: simulation IPs have their score boosted ×1.5, capped. -/
def effectiveScore (ip : String) (a : ℚ) : ℚ :=
  if isSimulationIP ip then min 1 (a * 1.5) else a

/-- First octet generated by `_block_ip` for a private source address:
`randint(1, 223)`, replaced by `choice([80, 104, 130, 157, 203, 209])` when it
lands in a private range. -/
def genOctet1 (o : MitOracle) : Nat :=
  if o.o1 = 10 ∨ o.o1 = 172 ∨ o.o1 = 192 then
    [80, 104, 130, 157, 203, 209].getD o.orep 80
  else o.o1

def mkIP (o1 a b c : Nat) : String :=
  toString o1 ++ "." ++ toString a ++ "." ++ toString b ++ "." ++ toString c

/-- The address `_block_ip` actually stores: private-looking sources
(`192.168.*` / `10.*`) are replaced by a freshly generated public-looking
address (mitigation.py lines 385–395). -/
def blockTargetIP (ip : String) (o : MitOracle) : String :=
  if pyStartsWith ip "192.168." || pyStartsWith ip "10." then
    mkIP (genOctet1 o) o.oa o.ob o.oc
  else ip

/-- Block durations (seconds): 5/3/1 minutes by severity. -/
def blockDuration (severity : String) : ℚ :=
  if severity = "severe" then 300 else if severity = "medium" then 180 else 60

def findBlock (l : List BlockRecord) (ip : String) : Option BlockRecord :=
  l.find? (fun b => b.ip_address == ip)

def replaceFirstBlock : List BlockRecord → BlockRecord → List BlockRecord
  | [], _ => []
  | b :: t, rec => if b.ip_address == rec.ip_address then rec :: t
      else b :: replaceFirstBlock t rec

/-- `BlockedIP` upsert: update the first record with this address in place,
else append a new record. -/
def blockUpsert (l : List BlockRecord) (rec : BlockRecord) : List BlockRecord :=
  match findBlock l rec.ip_address with
  | some _ => replaceFirstBlock l rec
  | none => l ++ [rec]

/-- `_block_ip` (lines 374–452); the `reason` string is not modelled. -/
def blockIP (s : MitState) (ip severity : String) (now : ℚ) (o : MitOracle) :
    String × MitState :=
  let target := blockTargetIP ip o
  let record : BlockRecord := ⟨target, severity, now, some (now + blockDuration severity)⟩
  ("block", { s with blocked := blockUpsert s.blocked record })

/-- `_is_ip_blocked` (lines 454–489): expired records are lazily deleted. -/
def isIPBlocked (s : MitState) (ip : String) (now : ℚ) : Bool × MitState :=
  match findBlock s.blocked ip with
  | none => (false, s)
  | some b =>
    match b.expiration with
    | none => (true, s)
    | some exp =>
      if now < exp then (true, s)
      else (false, { s with blocked := s.blocked.eraseP (fun r => r.ip_address == ip) })

/-- `_challenge_ip` (lines 355–372). -/
def challengeIP (s : MitState) (ip : String) (now : ℚ) (o : MitOracle) :
    String × MitState :=
  if alookupD s.ip_scores ip 0 > 0.7 ∨ alookupD s.rate_limits ip 0 > 10 then
    blockIP s ip "medium" now o
  else ("challenge", s)

/-- `_rate_limit_ip` (lines 334–353). -/
def rateLimitIP (s : MitState) (ip : String) (now : ℚ) (o : MitOracle) :
    String × MitState :=
  let cnt := alookupD s.rate_limits ip 0 + 1
  let s2 := { s with rate_limits := aupdate s.rate_limits ip cnt }
  if cnt > 5 then challengeIP s2 ip now o else ("rate_limit", s2)

/-- `_calculate_combined_threat` (lines 289–332).  `get_count()`'s internal
cleanup does not change the count at the same instant and is not threaded. -/
def calculateCombinedThreat (s : MitState) (ip : String) (a rate now : ℚ) : ℚ :=
  let base_component := a * 0.5
  let global_rate := max 1 (SWCounter.getCount s.global_counter now).1
  let global_avg := global_rate / (max 1 (s.ip_counters.length : ℚ))
  let rate_factor := if global_avg > 0 then min 1 (rate / (global_avg * 3)) else 0
  let rate_component := rate_factor * 0.2
  let graph_component :=
    match alookup s.ip_graph ip with
    | some node => (min 1 (((node.connections.length : ℚ) / 10 + node.weight) / 2)) * 0.2
    | none => 0
  let history_component := (min 1 (alookupD s.ip_scores ip 0)) * 0.1
  max 0 (min 1 (base_component + rate_component + graph_component + history_component))

/-- Steps 1–3 of `mitigate` (lines 160–227): window counters, simulation
boost, graph upsert and smoothing, LRU cache put, threat-queue push, amortized
queue pruning, and the decayed-score update.  Returns the updated state, the
effective (possibly boosted) score, and the per-source rate read back. -/
def mitigateUpdate (s : MitState) (ip : String) (a now : ℚ) (o : MitOracle) :
    MitState × ℚ × ℚ :=
  let g1 := SWCounter.increment s.global_counter now 1
  let ipc0 := match alookup s.ip_counters ip with
    | some c => c
    | none => ⟨60, []⟩
  let ipc1 := SWCounter.increment ipc0 now 1
  let rate := (SWCounter.getCount ipc1 now).1
  let ipc2 := (SWCounter.getCount ipc1 now).2
  let eff := effectiveScore ip a
  let node0 := match alookup s.ip_graph ip with
    | some n => n
    | none => IPNode.init ip now
  let node1 := IPNode.updateWeight node0 eff now
  let node2 := { node1 with threat_score := node1.threat_score * 0.7 + eff * 0.3 }
  let rate2 := (SWCounter.getCount ipc2 now).1
  let ipc3 := (SWCounter.getCount ipc2 now).2
  let cache1 := LRUCache.put s.recent_ips ip ⟨eff, now, rate, rate2⟩
  let queue1 := heapPush entryLT s.threat_queue (-node2.threat_score, now, ip)
  let queue2 :=
    if queue1.length > 10000 ∨ (queue1.length > 0 ∧ o.prune) then pruneQueue now queue1
    else queue1
  let scores1 := aupdate s.ip_scores ip (max eff (alookupD s.ip_scores ip 0 * 0.85))
  ({ s with
      global_counter := g1
      ip_counters := aupdate s.ip_counters ip ipc3
      ip_graph := aupdate s.ip_graph ip node2
      recent_ips := cache1
      threat_queue := queue2
      ip_scores := scores1 }, eff, rate)

/-- The combined threat level `mitigate` passes to its decision step. -/
def mitigateThreat (s : MitState) (ip : String) (a now : ℚ) (o : MitOracle) : ℚ :=
  let u := mitigateUpdate s ip a now o
  let b := isIPBlocked u.1 ip now
  calculateCombinedThreat b.2 ip u.2.1 u.2.2 now

/-- `mitigate` (lines 139–287). -/
def mitigate (s : MitState) (ip : String) (a now : ℚ) (o : MitOracle) :
    String × MitState :=
  if ip.length < 7 then ("none", s)
  else
    let u := mitigateUpdate s ip a now o
    let b := isIPBlocked u.1 ip now
    if b.1 then ("block", b.2)
    else
      let threat := calculateCombinedThreat b.2 ip u.2.1 u.2.2 now
      let adjustment : ℚ := if isSimulationIP ip then 0.85 else 1
      let act :=
        if threat ≥ b.2.severe_threshold * adjustment then blockIP b.2 ip "severe" now o
        else if threat ≥ b.2.medium_threshold * adjustment then challengeIP b.2 ip now o
        else if threat ≥ b.2.light_threshold * adjustment then rateLimitIP b.2 ip now o
        else ("none", b.2)
      if act.1 = "none" then act
      else
        let record : ActionRecord :=
          ⟨now, ip, act.1, alookupD act.2.ip_scores ip 0, u.2.2, threat⟩
        let log1 := act.2.mitigation_actions ++ [record]
        let log2 := if log1.length > 1000 then log1.drop (log1.length - 1000) else log1
        (act.1, { act.2 with
          active_mitigations := act.2.active_mitigations + 1
          mitigation_actions := log2 })

end MitigationSystem

open MitigationSystem

theorem blockIP_ip_scores (s : MitState) (ip sev : String) (now : ℚ) (o : MitOracle) :
    (blockIP s ip sev now o).2.ip_scores = s.ip_scores := rfl

theorem blockIP_fst (s : MitState) (ip sev : String) (now : ℚ) (o : MitOracle) :
    (blockIP s ip sev now o).1 = "block" := rfl

theorem challengeIP_ip_scores (s : MitState) (ip : String) (now : ℚ) (o : MitOracle) :
    (challengeIP s ip now o).2.ip_scores = s.ip_scores := by
  unfold challengeIP
  split <;> rfl

theorem rateLimitIP_ip_scores (s : MitState) (ip : String) (now : ℚ) (o : MitOracle) :
    (rateLimitIP s ip now o).2.ip_scores = s.ip_scores := by
  unfold rateLimitIP
  dsimp only
  split
  · rw [challengeIP_ip_scores]
  · rfl

theorem isIPBlocked_state (s : MitState) (ip : String) (now : ℚ) :
    (isIPBlocked s ip now).2 = s ∨
    (isIPBlocked s ip now).2 =
      { s with blocked := s.blocked.eraseP (fun r => r.ip_address == ip) } := by
  unfold isIPBlocked
  cases hfb : findBlock s.blocked ip with
  | none => exact Or.inl rfl
  | some b =>
    dsimp only
    cases hexp : b.expiration with
    | none => exact Or.inl rfl
    | some exp =>
      dsimp only
      split
      · exact Or.inl rfl
      · exact Or.inr rfl

theorem isIPBlocked_ip_scores (s : MitState) (ip : String) (now : ℚ) :
    (isIPBlocked s ip now).2.ip_scores = s.ip_scores := by
  rcases isIPBlocked_state s ip now with h | h <;> rw [h]

theorem isIPBlocked_ip_graph (s : MitState) (ip : String) (now : ℚ) :
    (isIPBlocked s ip now).2.ip_graph = s.ip_graph := by
  rcases isIPBlocked_state s ip now with h | h <;> rw [h]

theorem isIPBlocked_ip_counters (s : MitState) (ip : String) (now : ℚ) :
    (isIPBlocked s ip now).2.ip_counters = s.ip_counters := by
  rcases isIPBlocked_state s ip now with h | h <;> rw [h]

theorem isIPBlocked_global_counter (s : MitState) (ip : String) (now : ℚ) :
    (isIPBlocked s ip now).2.global_counter = s.global_counter := by
  rcases isIPBlocked_state s ip now with h | h <;> rw [h]

theorem isIPBlocked_thresholds (s : MitState) (ip : String) (now : ℚ) :
    (isIPBlocked s ip now).2.light_threshold = s.light_threshold ∧
    (isIPBlocked s ip now).2.medium_threshold = s.medium_threshold ∧
    (isIPBlocked s ip now).2.severe_threshold = s.severe_threshold := by
  rcases isIPBlocked_state s ip now with h | h <;> rw [h] <;> exact ⟨rfl, rfl, rfl⟩

theorem isIPBlocked_rate_limits (s : MitState) (ip : String) (now : ℚ) :
    (isIPBlocked s ip now).2.rate_limits = s.rate_limits := by
  rcases isIPBlocked_state s ip now with h | h <;> rw [h]

theorem mitigateUpdate_ip_scores (s : MitState) (ip : String) (a now : ℚ) (o : MitOracle) :
    (mitigateUpdate s ip a now o).1.ip_scores =
      aupdate s.ip_scores ip
        (max (effectiveScore ip a) (alookupD s.ip_scores ip 0 * 0.85)) := rfl

theorem mitigateUpdate_rate_limits (s : MitState) (ip : String) (a now : ℚ) (o : MitOracle) :
    (mitigateUpdate s ip a now o).1.rate_limits = s.rate_limits := rfl

theorem mitigateUpdate_thresholds (s : MitState) (ip : String) (a now : ℚ) (o : MitOracle) :
    (mitigateUpdate s ip a now o).1.light_threshold = s.light_threshold ∧
    (mitigateUpdate s ip a now o).1.medium_threshold = s.medium_threshold ∧
    (mitigateUpdate s ip a now o).1.severe_threshold = s.severe_threshold :=
  ⟨rfl, rfl, rfl⟩

theorem finalize_ip_scores (c : Prop) [Decidable c] (act : String × MitState)
    (n : Nat) (la : List ActionRecord) :
    (if c then act
     else (act.1,
       { act.2 with
         active_mitigations := n
         mitigation_actions := la })).2.ip_scores = act.2.ip_scores := by
  split <;> rfl

theorem decision_ip_scores (A B C : Prop) [Decidable A] [Decidable B] [Decidable C]
    (S : MitState) (ip : String) (now : ℚ) (o : MitOracle) :
    (if A then blockIP S ip "severe" now o
     else if B then challengeIP S ip now o
     else if C then rateLimitIP S ip now o
     else ("none", S)).2.ip_scores = S.ip_scores := by
  split
  · rw [blockIP_ip_scores]
  · split
    · rw [challengeIP_ip_scores]
    · split
      · rw [rateLimitIP_ip_scores]
      · rfl

theorem mitigate_ip_scores (s : MitState) (ip : String) (a now : ℚ) (o : MitOracle)
    (h : ¬ ip.length < 7) :
    (mitigate s ip a now o).2.ip_scores =
      aupdate s.ip_scores ip
        (max (effectiveScore ip a) (alookupD s.ip_scores ip 0 * 0.85)) := by
  simp only [mitigate, if_neg h]
  split
  · rw [isIPBlocked_ip_scores, mitigateUpdate_ip_scores]
  · rw [finalize_ip_scores, decision_ip_scores, isIPBlocked_ip_scores,
      mitigateUpdate_ip_scores]

/-- C6: a source identifier that is empty or shorter than 7 characters is
rejected by validation: `mitigate` returns `'none'` and the state — every
counter, cache, graph, queue, score map, action log and the block table — is
returned unchanged. -/
theorem claim_C6_invalid_source (s : MitState) (ip : String) (a now : ℚ)
    (o : MitOracle) (h : ip.length < 7) :
    mitigate s ip a now o = ("none", s) := by
  unfold mitigate
  rw [if_pos h]

theorem claim_C6_invalid_source_witness :
    mitigate initState "1.2.3" (1/2) 0 ⟨false, 80, 0, 0, 0, 1⟩ = ("none", initState) :=
  claim_C6_invalid_source initState "1.2.3" (1/2) 0 ⟨false, 80, 0, 0, 0, 1⟩ (by decide)

/-- C5 (counterexample): for a simulation-classified source (here a
`192.168.*` address) `mitigate` boosts the caller's anomaly score by ×1.5
before the decay update, so the stored score is 0.6, not
`max(0.4, previous×0.85) = 0.4` as the claim (which fixes `anomaly_score` to
be the caller's value) requires. -/
theorem claim_C5_score_decay_counterexample :
    alookup (mitigate initState "192.168.1.1" 0.4 0
        ⟨false, 80, 0, 0, 0, 1⟩).2.ip_scores "192.168.1.1" = some 0.6 ∧
    (0.6 : ℚ) ≠ max 0.4 (alookupD initState.ip_scores "192.168.1.1" 0 * 0.85) := by
  constructor
  · rw [mitigate_ip_scores initState "192.168.1.1" 0.4 0 ⟨false, 80, 0, 0, 0, 1⟩
      (by decide), alookup_aupdate_self]
    norm_num [effectiveScore, isSimulationIP, pyStartsWith, pyContainsDot,
      initState, alookupD, alookup]
  · norm_num [initState, alookupD, alookup]

/-- C5 (amended): on every `mitigate` call that passes validation, the stored
per-source decayed score becomes exactly `max(effective_score, previous×0.85)`
where `effective_score` is the caller's anomaly score for ordinary sources and
`min(1, 1.5×score)` for simulation-classified sources (prefix `192.168.` or no
dot), and `previous` is the value stored before the call (0 if absent). -/
theorem claim_C5_score_decay (s : MitState) (ip : String) (a now : ℚ)
    (o : MitOracle) (h : ¬ ip.length < 7) :
    alookup (mitigate s ip a now o).2.ip_scores ip =
      some (max (effectiveScore ip a) (alookupD s.ip_scores ip 0 * 0.85)) := by
  rw [mitigate_ip_scores s ip a now o h, alookup_aupdate_self]

theorem claim_C5_score_decay_witness :
    alookup (mitigate initState "203.0.113.9" 0.3 2
        ⟨false, 80, 0, 0, 0, 1⟩).2.ip_scores "203.0.113.9" =
      some (max (effectiveScore "203.0.113.9" 0.3)
        (alookupD initState.ip_scores "203.0.113.9" 0 * 0.85)) :=
  claim_C5_score_decay initState "203.0.113.9" 0.3 2 ⟨false, 80, 0, 0, 0, 1⟩ (by decide)

/-- The combined-threat formula exactly as the specification words it:
`0.5·anomaly + 0.2·min(1, rate/(3·global/active)) +
0.2·min(1, (connections/10 + weight)/2) + 0.1·min(1, decayed)`, clamped. -/
def specCombinedThreat (a rate g n conn w sc : ℚ) : ℚ :=
  max 0 (min 1 (0.5 * a + 0.2 * min 1 (rate / (3 * (g / n))) +
    0.2 * min 1 ((conn / 10 + w) / 2) + 0.1 * min 1 sc))

/-- The graph node as stored by `mitigate` step 2: created on first sighting
(initial weight 1), weight-smoothed with the effective score, and
threat-score-smoothed 0.7/0.3. -/
def mitUpdatedNode (s : MitState) (ip : String) (a now : ℚ) : IPNode :=
  let eff := effectiveScore ip a
  let node0 := match alookup s.ip_graph ip with
    | some n => n
    | none => IPNode.init ip now
  let node1 := IPNode.updateWeight node0 eff now
  { node1 with threat_score := node1.threat_score * 0.7 + eff * 0.3 }

theorem mitigateUpdate_ip_graph (s : MitState) (ip : String) (a now : ℚ) (o : MitOracle) :
    (mitigateUpdate s ip a now o).1.ip_graph =
      aupdate s.ip_graph ip (mitUpdatedNode s ip a now) := rfl

theorem mitigateUpdate_eff (s : MitState) (ip : String) (a now : ℚ) (o : MitOracle) :
    (mitigateUpdate s ip a now o).2.1 = effectiveScore ip a := rfl

theorem aupdate_length_pos {β : Type} (l : List (String × β)) (k : String) (v : β) :
    1 ≤ (aupdate l k v).length := by
  unfold aupdate
  split
  · rename_i hany
    rcases l with _ | ⟨e, t⟩
    · simp at hany
    · simp
  · simp

/-- C2 (amended): for every validated `mitigate` call, the combined threat
level passed to the decision step equals the claimed formula
`0.5·a + 0.2·min(1, rate/(3·g/n)) + 0.2·min(1, (conn/10 + w)/2) +
0.1·min(1, decayed)` clamped to [0,1] — with `a` the *effective* anomaly score
(the caller's score, boosted to `min(1, 1.5·score)` for simulation-classified
sources), `rate`/`g`/`n` the per-source rate, global rate and active-source
count after the step-1 updates, `conn`/`w` the stored node's state, and
`decayed` the just-updated decayed score. -/
theorem claim_C2_combined_threat (s : MitState) (ip : String) (a now : ℚ)
    (o : MitOracle) (_h : ¬ ip.length < 7)
    (hg : 1 ≤ (SWCounter.getCount
      (mitigateUpdate s ip a now o).1.global_counter now).1) :
    mitigateThreat s ip a now o =
      specCombinedThreat (effectiveScore ip a)
        (mitigateUpdate s ip a now o).2.2
        (SWCounter.getCount (mitigateUpdate s ip a now o).1.global_counter now).1
        ((mitigateUpdate s ip a now o).1.ip_counters.length : ℚ)
        ((mitUpdatedNode s ip a now).connections.length : ℚ)
        (mitUpdatedNode s ip a now).weight
        (max (effectiveScore ip a) (alookupD s.ip_scores ip 0 * 0.85)) := by
  have hn : 1 ≤ ((mitigateUpdate s ip a now o).1.ip_counters.length : ℚ) := by
    have := aupdate_length_pos s.ip_counters ip
      (SWCounter.getCount ((SWCounter.getCount (SWCounter.increment
        (match alookup s.ip_counters ip with
         | some c => c
         | none => ⟨60, []⟩) now 1) now).2) now).2
    have h2 : 1 ≤ (mitigateUpdate s ip a now o).1.ip_counters.length := this
    exact_mod_cast h2
  simp only [mitigateThreat, calculateCombinedThreat]
  rw [isIPBlocked_global_counter, isIPBlocked_ip_counters, isIPBlocked_ip_graph,
    isIPBlocked_ip_scores, mitigateUpdate_eff, mitigateUpdate_ip_graph,
    alookup_aupdate_self, mitigateUpdate_ip_scores]
  have hmax1 : max 1 (SWCounter.getCount
      (mitigateUpdate s ip a now o).1.global_counter now).1 =
      (SWCounter.getCount (mitigateUpdate s ip a now o).1.global_counter now).1 :=
    max_eq_right hg
  have hmax2 : max 1 ((mitigateUpdate s ip a now o).1.ip_counters.length : ℚ) =
      ((mitigateUpdate s ip a now o).1.ip_counters.length : ℚ) :=
    max_eq_right hn
  rw [hmax1, hmax2]
  have hpos : (SWCounter.getCount (mitigateUpdate s ip a now o).1.global_counter now).1 /
      ((mitigateUpdate s ip a now o).1.ip_counters.length : ℚ) > 0 :=
    div_pos (by linarith) (by linarith)
  rw [if_pos hpos]
  have hsc : alookupD (aupdate s.ip_scores ip
      (max (effectiveScore ip a) (alookupD s.ip_scores ip 0 * 0.85))) ip 0 =
      max (effectiveScore ip a) (alookupD s.ip_scores ip 0 * 0.85) := by
    unfold alookupD
    rw [alookup_aupdate_self]
    rfl
  rw [hsc]
  unfold specCombinedThreat
  ring_nf

theorem claim_C2_combined_threat_witness :
    mitigateThreat initState "203.0.113.5" 0.6 0 ⟨false, 80, 0, 0, 0, 1⟩ =
      specCombinedThreat (effectiveScore "203.0.113.5" 0.6)
        (mitigateUpdate initState "203.0.113.5" 0.6 0 ⟨false, 80, 0, 0, 0, 1⟩).2.2
        (SWCounter.getCount (mitigateUpdate initState "203.0.113.5" 0.6 0
          ⟨false, 80, 0, 0, 0, 1⟩).1.global_counter 0).1
        ((mitigateUpdate initState "203.0.113.5" 0.6 0
          ⟨false, 80, 0, 0, 0, 1⟩).1.ip_counters.length : ℚ)
        ((mitUpdatedNode initState "203.0.113.5" 0.6 0).connections.length : ℚ)
        (mitUpdatedNode initState "203.0.113.5" 0.6 0).weight
        (max (effectiveScore "203.0.113.5" 0.6)
          (alookupD initState.ip_scores "203.0.113.5" 0 * 0.85)) :=
  claim_C2_combined_threat initState "203.0.113.5" 0.6 0 ⟨false, 80, 0, 0, 0, 1⟩
    (by decide)
    (by norm_num +decide [mitigateUpdate, initState, SWCounter.increment,
      SWCounter.cleanup, SWCounter.getCount, effectiveScore, isSimulationIP,
      pyStartsWith, pyContainsDot, IPNode.updateWeight, IPNode.init, heapPush,
      siftUp, lswap, entryLT, charListLt, pruneQueue, alookup, alookupD, aupdate,
      LRUCache.put])

/-- The state as of `mitigate`'s decision step: after the step-1 updates and
the already-blocked check (which may lazily drop an expired block record). -/
def mitDecisionState (s : MitState) (ip : String) (a now : ℚ) (o : MitOracle) :
    MitState :=
  (isIPBlocked (mitigateUpdate s ip a now o).1 ip now).2

theorem alookupD_aupdate_self {β : Type} (l : List (String × β)) (k : String)
    (v d : β) : alookupD (aupdate l k v) k d = v := by
  unfold alookupD
  rw [alookup_aupdate_self]
  rfl

set_option maxHeartbeats 16000000 in
/-- C3 counterexample: the source `"203.0.113.5"` scores in the rate-limit
band (threat 787/1500, between the light threshold 0.4 and the medium
threshold 0.6) on six consecutive `mitigate` calls.  The first five return
`"rate_limit"`, but the sixth returns `"block"`, not `"challenge"`: the
escalation path goes through `_challenge_ip`, which immediately blocks
because the stored decayed score 0.72 exceeds 0.7. -/
theorem claim_C3_rate_limit_escalation_counterexample :
    (let ip := "203.0.113.5"
     let o : MitOracle := ⟨false, 80, 0, 0, 0, 1⟩
     let r1 := mitigate initState ip 0.72 0 o
     let r2 := mitigate r1.2 ip 0.72 1 o
     let r3 := mitigate r2.2 ip 0.72 2 o
     let r4 := mitigate r3.2 ip 0.72 3 o
     let r5 := mitigate r4.2 ip 0.72 4 o
     let r6 := mitigate r5.2 ip 0.72 5 o
     r1.1 = "rate_limit" ∧ r2.1 = "rate_limit" ∧ r3.1 = "rate_limit" ∧
       r4.1 = "rate_limit" ∧ r5.1 = "rate_limit" ∧
       r6.1 = "block" ∧ r6.1 ≠ "challenge") := by
  norm_num +decide [mitigate, mitigateUpdate, calculateCombinedThreat,
    effectiveScore, isSimulationIP, rateLimitIP, challengeIP, blockIP, isIPBlocked,
    findBlock, initState, SWCounter.increment, SWCounter.cleanup, SWCounter.getCount,
    IPNode.updateWeight, IPNode.init, heapPush, siftUp, lswap, entryLT, pruneQueue,
    charListLt, alookup, alookupD, aupdate, LRUCache.put, pyStartsWith, pyContainsDot,
    blockUpsert, replaceFirstBlock, blockTargetIP, blockDuration, genOctet1, mkIP]

/-- C3 (amended): when the combined threat crosses the light threshold but
stays below the medium and severe ones (each adjusted for simulation sources)
and the source's rate-limit count after increment exceeds 5, the action
escalates past `rate_limit`: it is `challenge` when the stored decayed score
is at most 0.7 and the incremented count at most 10, and `block` otherwise
(the escalation is delegated to `_challenge_ip`, which blocks in the latter
case). -/
theorem claim_C3_rate_limit_escalation (s : MitState) (ip : String) (a now : ℚ)
    (o : MitOracle) (h : ¬ ip.length < 7)
    (hb : (isIPBlocked (mitigateUpdate s ip a now o).1 ip now).1 = false)
    (hsev : mitigateThreat s ip a now o <
      (mitDecisionState s ip a now o).severe_threshold *
        (if isSimulationIP ip then 0.85 else 1))
    (hmed : mitigateThreat s ip a now o <
      (mitDecisionState s ip a now o).medium_threshold *
        (if isSimulationIP ip then 0.85 else 1))
    (hlight : mitigateThreat s ip a now o ≥
      (mitDecisionState s ip a now o).light_threshold *
        (if isSimulationIP ip then 0.85 else 1))
    (hcnt : alookupD (mitDecisionState s ip a now o).rate_limits ip 0 + 1 > 5) :
    (mitigate s ip a now o).1 =
      if alookupD (mitDecisionState s ip a now o).ip_scores ip 0 > 0.7 ∨
          alookupD (mitDecisionState s ip a now o).rate_limits ip 0 + 1 > 10
      then "block" else "challenge" := by
  simp only [mitigateThreat, mitDecisionState] at hsev hmed hlight hcnt ⊢
  simp only [mitigate, if_neg h, hb, Bool.false_eq_true, if_false]
  rw [if_neg (not_le.mpr hsev), if_neg (not_le.mpr hmed), if_pos hlight]
  simp only [rateLimitIP, if_pos hcnt, challengeIP]
  dsimp only
  rw [alookupD_aupdate_self]
  by_cases hc : alookupD
      ((isIPBlocked (mitigateUpdate s ip a now o).1 ip now).2).ip_scores ip 0 > 0.7 ∨
      alookupD ((isIPBlocked (mitigateUpdate s ip a now o).1 ip now).2).rate_limits
        ip 0 + 1 > 10
  · simp only [if_pos hc, blockIP]
    simp +decide
  · simp only [if_neg hc]
    simp +decide

set_option maxHeartbeats 64000000 in
theorem claim_C3_rate_limit_escalation_witness :
    (mitigate { initState with rate_limits := [("203.0.113.5", 5)] }
        "203.0.113.5" 0.6 0 ⟨false, 80, 0, 0, 0, 1⟩).1 =
      if alookupD (mitDecisionState { initState with rate_limits := [("203.0.113.5", 5)] }
            "203.0.113.5" 0.6 0 ⟨false, 80, 0, 0, 0, 1⟩).ip_scores "203.0.113.5" 0 > 0.7 ∨
          alookupD (mitDecisionState { initState with rate_limits := [("203.0.113.5", 5)] }
            "203.0.113.5" 0.6 0 ⟨false, 80, 0, 0, 0, 1⟩).rate_limits "203.0.113.5" 0 + 1 > 10
      then "block" else "challenge" :=
  claim_C3_rate_limit_escalation
    { initState with rate_limits := [("203.0.113.5", 5)] } "203.0.113.5" 0.6 0
    ⟨false, 80, 0, 0, 0, 1⟩
    (by decide)
    (by norm_num +decide [mitigateUpdate, isIPBlocked, findBlock, initState,
      effectiveScore, isSimulationIP, SWCounter.increment, SWCounter.cleanup,
      SWCounter.getCount, IPNode.updateWeight, IPNode.init, heapPush, siftUp,
      lswap, entryLT, pruneQueue, charListLt, alookup, alookupD, aupdate,
      LRUCache.put, pyStartsWith, pyContainsDot])
    (by norm_num +decide [mitigateThreat, mitDecisionState, mitigateUpdate,
      calculateCombinedThreat, isIPBlocked, findBlock, initState, effectiveScore,
      isSimulationIP, SWCounter.increment, SWCounter.cleanup, SWCounter.getCount,
      IPNode.updateWeight, IPNode.init, heapPush, siftUp, lswap, entryLT,
      pruneQueue, charListLt, alookup, alookupD, aupdate, LRUCache.put,
      pyStartsWith, pyContainsDot])
    (by norm_num +decide [mitigateThreat, mitDecisionState, mitigateUpdate,
      calculateCombinedThreat, isIPBlocked, findBlock, initState, effectiveScore,
      isSimulationIP, SWCounter.increment, SWCounter.cleanup, SWCounter.getCount,
      IPNode.updateWeight, IPNode.init, heapPush, siftUp, lswap, entryLT,
      pruneQueue, charListLt, alookup, alookupD, aupdate, LRUCache.put,
      pyStartsWith, pyContainsDot])
    (by norm_num +decide [mitigateThreat, mitDecisionState, mitigateUpdate,
      calculateCombinedThreat, isIPBlocked, findBlock, initState, effectiveScore,
      isSimulationIP, SWCounter.increment, SWCounter.cleanup, SWCounter.getCount,
      IPNode.updateWeight, IPNode.init, heapPush, siftUp, lswap, entryLT,
      pruneQueue, charListLt, alookup, alookupD, aupdate, LRUCache.put,
      pyStartsWith, pyContainsDot])
    (by norm_num +decide [mitDecisionState, mitigateUpdate, isIPBlocked,
      findBlock, initState, effectiveScore, isSimulationIP, SWCounter.increment,
      SWCounter.cleanup, SWCounter.getCount, IPNode.updateWeight, IPNode.init,
      heapPush, siftUp, lswap, entryLT, pruneQueue, charListLt, alookup, alookupD,
      aupdate, LRUCache.put, pyStartsWith, pyContainsDot])

/-- C8: a threat-queue pruning pass retains exactly the entries whose
timestamp is within one hour of the current time (the rebuilt queue is a
permutation of the young-entry filter; an entry is in the result iff it was
in the queue and its age is below 3600 seconds), so no retained entry has age
greater than one hour, and the rebuilt list satisfies the binary min-heap
property for the queue order. -/
theorem claim_C8_queue_prune (now : ℚ) (q : List QEntry) :
    (∀ e ∈ pruneQueue now q, now - e.2.1 < 3600) ∧
    (pruneQueue now q).Perm (q.filter (fun e => e.2.1 > now - 3600)) ∧
    (∀ e : QEntry, e ∈ pruneQueue now q ↔ (e ∈ q ∧ now - e.2.1 < 3600)) ∧
    IsMinHeap entryLE (pruneQueue now q) := by
  have hperm : (pruneQueue now q).Perm (q.filter (fun e => e.2.1 > now - 3600)) :=
    heapify_perm entryLE _
  have hmem : ∀ e : QEntry, e ∈ pruneQueue now q ↔ (e ∈ q ∧ now - e.2.1 < 3600) := by
    intro e
    rw [hperm.mem_iff, List.mem_filter]
    constructor
    · rintro ⟨h1, h2⟩
      rw [decide_eq_true_iff] at h2
      exact ⟨h1, by linarith⟩
    · rintro ⟨h1, h2⟩
      refine ⟨h1, ?_⟩
      rw [decide_eq_true_iff]
      linarith
  refine ⟨fun e he => (hmem e).mp he |>.2, hperm, hmem, ?_⟩
  exact heapify_isMinHeap entryLE entryLE_total entryLE_trans _

set_option maxRecDepth 4000 in
theorem natRepr_facts : ∀ m, m < 224 →
    ('.' ∉ (Nat.repr m).data ∧
     (m ≠ 10 → (Nat.repr m).data ≠ ['1', '0']) ∧
     (m ≠ 192 → (Nat.repr m).data ≠ ['1', '9', '2'])) := by decide

theorem prefixDot_iff : ∀ (p s r : List Char), '.' ∉ p → '.' ∉ s →
    (((p ++ ['.']).isPrefixOf (s ++ '.' :: r) = true) ↔ p = s)
  | [], [], r, _, _ => by simp [List.isPrefixOf]
  | [], c :: t, r, _, hs => by
    have hc : ('.' == c) = false := by
      refine beq_eq_false_iff_ne.mpr fun h => hs ?_
      rw [← h]
      exact List.mem_cons_self '.' t
    simp [List.isPrefixOf, hc]
  | a :: p', [], r, hp, _ => by
    have ha : (a == '.') = false := by
      refine beq_eq_false_iff_ne.mpr fun h => hp ?_
      rw [h]
      exact List.mem_cons_self '.' p'
    simp [List.isPrefixOf, ha]
  | a :: p', c :: t, r, hp, hs => by
    have hp' : '.' ∉ p' := fun h => hp (List.mem_cons_of_mem a h)
    have hs' : '.' ∉ t := fun h => hs (List.mem_cons_of_mem c h)
    simp [List.isPrefixOf, Bool.and_eq_true, beq_iff_eq,
      prefixDot_iff p' t r hp' hs']

theorem genOctet1_spec (o : MitOracle) (h1 : 1 ≤ o.o1) (h2 : o.o1 ≤ 223) :
    1 ≤ genOctet1 o ∧ genOctet1 o ≤ 223 ∧
    genOctet1 o ≠ 10 ∧ genOctet1 o ≠ 172 ∧ genOctet1 o ≠ 192 := by
  rw [genOctet1]
  split
  · generalize o.orep = j
    rcases j with _|_|_|_|_|_|k <;>
      simp [List.getD_cons_zero, List.getD_cons_succ, List.getD_nil]
  · rename_i hn
    push_neg at hn
    omega

theorem mkIP_data (o1 a b c : Nat) :
    ∃ rest, (mkIP o1 a b c).data = (Nat.repr o1).data ++ '.' :: rest := by
  refine ⟨(Nat.repr a).data ++ '.' :: ((Nat.repr b).data ++ '.' :: (Nat.repr c).data), ?_⟩
  have ht : ∀ n : Nat, toString n = Nat.repr n := fun _ => rfl
  have hd : ("." : String).data = ['.'] := rfl
  simp [mkIP, String.data_append, List.append_assoc, ht, hd]

theorem blockTargetIP_ne (ip : String) (o : MitOracle)
    (hpriv : pyStartsWith ip "192.168." = true ∨ pyStartsWith ip "10." = true)
    (h1 : 1 ≤ o.o1) (h2 : o.o1 ≤ 223) :
    blockTargetIP ip o ≠ ip := by
  have hg := genOctet1_spec o h1 h2
  have hcond : (pyStartsWith ip "192.168." || pyStartsWith ip "10.") = true := by
    rcases hpriv with h | h <;> simp [h]
  rw [blockTargetIP, if_pos hcond]
  intro heq
  obtain ⟨rest, hdata⟩ := mkIP_data (genOctet1 o) o.oa o.ob o.oc
  have hrf := natRepr_facts (genOctet1 o) (by omega)
  rcases hpriv with h | h
  · have h192 : pyStartsWith ip "192." = true := by
      rw [pyStartsWith] at h ⊢
      rw [List.isPrefixOf_iff_prefix] at h ⊢
      exact List.IsPrefix.trans (by decide) h
    rw [← heq, pyStartsWith, hdata] at h192
    have hsplit : ("192." : String).data = ['1', '9', '2'] ++ ['.'] := rfl
    rw [hsplit] at h192
    have heqd := (prefixDot_iff ['1', '9', '2'] (Nat.repr (genOctet1 o)).data rest
      (by decide) hrf.1).mp h192
    exact hrf.2.2 hg.2.2.2.2 heqd.symm
  · rw [← heq, pyStartsWith, hdata] at h
    have hsplit : ("10." : String).data = ['1', '0'] ++ ['.'] := rfl
    rw [hsplit] at h
    have heqd := (prefixDot_iff ['1', '0'] (Nat.repr (genOctet1 o)).data rest
      (by decide) hrf.1).mp h
    exact hrf.2.1 hg.2.2.1 heqd.symm

theorem findBlock_cons_pos (b : BlockRecord) (t : List BlockRecord) (ip : String)
    (hb : (b.ip_address == ip) = true) :
    findBlock (b :: t) ip = some b := by
  rw [findBlock]
  simp only [List.find?, hb]

theorem findBlock_cons_neg (b : BlockRecord) (t : List BlockRecord) (ip : String)
    (hb : (b.ip_address == ip) = false) :
    findBlock (b :: t) ip = findBlock t ip := by
  rw [findBlock, findBlock]
  simp only [List.find?, hb]

theorem findBlock_replaceFirstBlock_ne (l : List BlockRecord) (rec : BlockRecord)
    (ip : String) (h : rec.ip_address ≠ ip) :
    findBlock (replaceFirstBlock l rec) ip = findBlock l ip := by
  induction l with
  | nil => rfl
  | cons b t ih =>
    rw [replaceFirstBlock]
    split
    · rename_i hb
      have hbeq : b.ip_address = rec.ip_address := by simpa using hb
      have hrec : (rec.ip_address == ip) = false := beq_eq_false_iff_ne.mpr h
      have hbip : (b.ip_address == ip) = false := by
        rw [hbeq]
        exact hrec
      rw [findBlock_cons_neg _ _ _ hrec, findBlock_cons_neg _ _ _ hbip]
    · by_cases hbip : (b.ip_address == ip) = true
      · rw [findBlock_cons_pos _ _ _ hbip, findBlock_cons_pos _ _ _ hbip]
      · have hbip2 : (b.ip_address == ip) = false := by simpa using hbip
        rw [findBlock_cons_neg _ _ _ hbip2, findBlock_cons_neg _ _ _ hbip2]
        exact ih

theorem findBlock_append_single_ne (l : List BlockRecord) (rec : BlockRecord)
    (ip : String) (h : rec.ip_address ≠ ip) :
    findBlock (l ++ [rec]) ip = findBlock l ip := by
  induction l with
  | nil =>
    rw [List.nil_append, findBlock_cons_neg _ _ _ (beq_eq_false_iff_ne.mpr h)]
  | cons b t ih =>
    rw [List.cons_append]
    by_cases hbip : (b.ip_address == ip) = true
    · rw [findBlock_cons_pos _ _ _ hbip, findBlock_cons_pos _ _ _ hbip]
    · have hbip2 : (b.ip_address == ip) = false := by simpa using hbip
      rw [findBlock_cons_neg _ _ _ hbip2, findBlock_cons_neg _ _ _ hbip2]
      exact ih

theorem findBlock_blockUpsert_ne (l : List BlockRecord) (rec : BlockRecord)
    (ip : String) (h : rec.ip_address ≠ ip) :
    findBlock (blockUpsert l rec) ip = findBlock l ip := by
  rw [blockUpsert]
  split
  · exact findBlock_replaceFirstBlock_ne l rec ip h
  · exact findBlock_append_single_ne l rec ip h

/-- C4: for every source address starting with `192.168.` or `10.`, and for
every outcome of the random draws (`randint(1, 223)` for the first octet, any
`choice` index, any remaining octets), `_block_ip` stores the block record
under the freshly generated address: the generated first octet is never 10,
172 or 192, the stored key differs from the input address, the action is
`block`, the upsert leaves lookups for the original source untouched, and
hence if the source had no prior record, `_is_ip_blocked` on it stays false
at every later time, so `mitigate`'s already-blocked short-circuit never
fires for the blocked source. -/
theorem claim_C4_private_block_redirect (s : MitState) (ip severity : String)
    (now : ℚ) (o : MitOracle)
    (hpriv : pyStartsWith ip "192.168." = true ∨ pyStartsWith ip "10." = true)
    (h1 : 1 ≤ o.o1) (h2 : o.o1 ≤ 223) :
    (genOctet1 o ≠ 10 ∧ genOctet1 o ≠ 172 ∧ genOctet1 o ≠ 192) ∧
    blockTargetIP ip o ≠ ip ∧
    (blockIP s ip severity now o).1 = "block" ∧
    (blockIP s ip severity now o).2.blocked =
      blockUpsert s.blocked
        ⟨blockTargetIP ip o, severity, now, some (now + blockDuration severity)⟩ ∧
    findBlock (blockIP s ip severity now o).2.blocked ip = findBlock s.blocked ip ∧
    (findBlock s.blocked ip = none →
      ∀ t : ℚ, (isIPBlocked (blockIP s ip severity now o).2 ip t).1 = false) := by
  have hg := genOctet1_spec o h1 h2
  have hne := blockTargetIP_ne ip o hpriv h1 h2
  have hfb : findBlock (blockIP s ip severity now o).2.blocked ip =
      findBlock s.blocked ip :=
    findBlock_blockUpsert_ne s.blocked
      ⟨blockTargetIP ip o, severity, now, some (now + blockDuration severity)⟩ ip hne
  refine ⟨⟨hg.2.2.1, hg.2.2.2.1, hg.2.2.2.2⟩, hne, rfl, rfl, hfb, ?_⟩
  intro hnone t
  have hn2 : findBlock (blockIP s ip severity now o).2.blocked ip = none :=
    hfb.trans hnone
  rw [isIPBlocked]
  rw [hn2]

theorem claim_C4_private_block_redirect_witness :
    (genOctet1 ⟨false, 192, 3, 7, 33, 21⟩ ≠ 10 ∧
     genOctet1 ⟨false, 192, 3, 7, 33, 21⟩ ≠ 172 ∧
     genOctet1 ⟨false, 192, 3, 7, 33, 21⟩ ≠ 192) ∧
    blockTargetIP "192.168.1.7" ⟨false, 192, 3, 7, 33, 21⟩ ≠ "192.168.1.7" ∧
    (blockIP initState "192.168.1.7" "severe" 0 ⟨false, 192, 3, 7, 33, 21⟩).1 = "block" ∧
    (blockIP initState "192.168.1.7" "severe" 0 ⟨false, 192, 3, 7, 33, 21⟩).2.blocked =
      blockUpsert initState.blocked
        ⟨blockTargetIP "192.168.1.7" ⟨false, 192, 3, 7, 33, 21⟩, "severe", 0,
          some (0 + blockDuration "severe")⟩ ∧
    findBlock (blockIP initState "192.168.1.7" "severe" 0
        ⟨false, 192, 3, 7, 33, 21⟩).2.blocked "192.168.1.7" =
      findBlock initState.blocked "192.168.1.7" ∧
    (findBlock initState.blocked "192.168.1.7" = none →
      ∀ t : ℚ, (isIPBlocked (blockIP initState "192.168.1.7" "severe" 0
        ⟨false, 192, 3, 7, 33, 21⟩).2 "192.168.1.7" t).1 = false) :=
  claim_C4_private_block_redirect initState "192.168.1.7" "severe" 0
    ⟨false, 192, 3, 7, 33, 21⟩ (Or.inl (by decide)) (by decide) (by decide)

set_option maxHeartbeats 16000000 in
/-- C2 counterexample: for the simulation-classified source `"192.168.1.1"`
with caller anomaly score 0.4, the decision step receives threat 787/1500,
while the claimed formula evaluated with the caller's anomaly score 0.4 and
the very same state quantities (rate 1, global rate 1, one active source, 0
connections, weight 49/50, decayed score 3/5) yields 637/1500: the code feeds
the boosted effective score `min(1, 0.4·1.5) = 0.6` into the base component,
not the caller's score. -/
theorem claim_C2_combined_threat_counterexample :
    mitigateThreat initState "192.168.1.1" 0.4 0 ⟨false, 80, 0, 0, 0, 1⟩ = 787/1500 ∧
    specCombinedThreat 0.4 1 1 1 0 (49/50) (3/5) = 637/1500 ∧
    (787/1500 : ℚ) ≠ 637/1500 ∧
    (mitigateUpdate initState "192.168.1.1" 0.4 0 ⟨false, 80, 0, 0, 0, 1⟩).2.2 = 1 ∧
    (SWCounter.getCount (mitigateUpdate initState "192.168.1.1" 0.4 0
      ⟨false, 80, 0, 0, 0, 1⟩).1.global_counter 0).1 = 1 ∧
    ((mitigateUpdate initState "192.168.1.1" 0.4 0
      ⟨false, 80, 0, 0, 0, 1⟩).1.ip_counters.length : ℚ) = 1 ∧
    ((mitUpdatedNode initState "192.168.1.1" 0.4 0).connections.length : ℚ) = 0 ∧
    (mitUpdatedNode initState "192.168.1.1" 0.4 0).weight = 49/50 ∧
    alookupD (mitigateUpdate initState "192.168.1.1" 0.4 0
      ⟨false, 80, 0, 0, 0, 1⟩).1.ip_scores "192.168.1.1" 0 = 3/5 := by
  norm_num +decide [mitigateThreat, mitigateUpdate, calculateCombinedThreat,
    mitUpdatedNode, specCombinedThreat, effectiveScore, isSimulationIP,
    isIPBlocked, findBlock, initState, SWCounter.increment, SWCounter.cleanup,
    SWCounter.getCount, IPNode.updateWeight, IPNode.init, heapPush, siftUp,
    lswap, entryLT, pruneQueue, charListLt, alookup, alookupD, aupdate,
    LRUCache.put, pyStartsWith, pyContainsDot]
